import Mathlib

set_option linter.unusedVariables false

/-!
Shallow embedding of the AInalyst2 core: the incremental FAISS build
pipeline (`src/incremental_chunk_embed.py`) and the retrieval path
(`src/query_rag.py`).

Modelling conventions:
* Text is represented by its token sequence: the external tiktoken
  encoding `cl100k_base` maps a text to a token list, so `chunk_text`
  is modelled at token level, each produced chunk being the token slice
  `tokens[start:end]` (the external `tokenizer.decode` of that slice is
  identified with the slice itself).
* Embedding vectors are integer-component vectors; the OpenAI embedding
  call is an external collaborator and enters as a function parameter,
  as does `faiss.normalize_L2`.
* The FAISS index wrapped by `faiss.IndexIDMap(faiss.IndexFlatIP(d))` is
  a list of `(id, vector)` pairs extended by `add_with_ids`.
-/

/-- One run of the `while start < len(tokens)` loop of `chunk_text`
(`incremental_chunk_embed.py` lines 43-53; `query_rag.py` lines 40-53
define the identical function).  The produced windows are the pairs
`(start, end)` with `end = min (start + chunk_size) n`; the chunk
`tokens[start:end]` is appended first and the loop breaks afterwards
when `end = n`, else `start += chunk_size - overlap`.  `start` is an
`Int` because the Python update can drive it negative when
`overlap > chunk_size`.  The loop is modelled with fuel: the Python
loop does not terminate when the step `chunk_size - overlap` is not
positive and the text is longer than `chunk_size` tokens, and `none`
models that divergence (fuel `n + 1` is sufficient for every
terminating case, see `chunkWindows_sound`). -/
def chunkWindows (n cs ov : Nat) : Nat → Int → Option (List (Int × Int))
  | 0, start => if start < (n : Int) then none else some []
  | fuel + 1, start =>
    if start < (n : Int) then
      if min (start + (cs : Int)) (n : Int) = (n : Int) then
        some [(start, min (start + (cs : Int)) (n : Int))]
      else
        match chunkWindows n cs ov fuel (start + ((cs : Int) - (ov : Int))) with
        | some ws => some ((start, min (start + (cs : Int)) (n : Int)) :: ws)
        | none => none
    else some []

/-- The Python slice `tokens[start:end]` for a window `(start, end)` with
`0 ≤ start ≤ end ≤ n` (the only windows a terminating run produces). -/
def sliceWindow (tokens : List Nat) (w : Int × Int) : List Nat :=
  (tokens.drop w.1.toNat).take (w.2 - w.1).toNat

/-- `chunk_text(text, chunk_size, overlap)` of both source files, at token
level: the ordered list of window slices; `none` models the diverging
loop. -/
def chunk_text (tokens : List Nat) (cs ov : Nat) : Option (List (List Nat)) :=
  (chunkWindows tokens.length cs ov (tokens.length + 1) 0).map
    (fun ws => ws.map (sliceWindow tokens))

/-- The driver's call `chunk_text(full_text)` with the module constants
`CHUNK_SIZE = 1000`, `CHUNK_OVERLAP = 200`.  For this configuration the
loop always terminates (`ov < cs`, `chunkWindows_sound`), so the `none`
branch of `getD` is never taken. -/
def chunksOf (tokens : List Nat) : List (List Nat) :=
  (chunk_text tokens 1000 200).getD []

/-- Adjacency of consecutive windows produced by the loop: the earlier
window spans a full `chunk_size` tokens and the later one starts exactly
`overlap` tokens before the earlier one ends, so consecutive chunks
share exactly `overlap` tokens. -/
def windowStep (cs ov : Nat) (a b : Int × Int) : Prop :=
  a.2 = a.1 + (cs : Int) ∧ b.1 + (ov : Int) = a.2

/-- Everything claim C4 asserts of the chunk sequence for one input. -/
def ChunkShape (tokens : List Nat) (cs ov : Nat) : Prop :=
  ∃ ws, chunkWindows tokens.length cs ov (tokens.length + 1) 0 = some ws ∧
    chunk_text tokens cs ov = some (ws.map (sliceWindow tokens)) ∧
    (∀ w ∈ ws, 0 ≤ w.1 ∧ w.1 < w.2 ∧ w.2 ≤ (tokens.length : Int) ∧
      (sliceWindow tokens w).length ≤ cs ∧ sliceWindow tokens w ≠ []) ∧
    List.Chain' (windowStep cs ov) ws ∧
    (tokens = [] → ws = []) ∧
    (tokens ≠ [] → ws.getLast?.map Prod.snd = some (tokens.length : Int))

theorem chunkWindows_sound (n cs ov : Nat) (hov : ov < cs) :
    ∀ (fuel : Nat) (start : Int), 0 ≤ start → (n : Int) ≤ start + fuel →
    ∃ ws, chunkWindows n cs ov fuel start = some ws ∧
      (∀ w ∈ ws, start ≤ w.1 ∧ 0 ≤ w.1 ∧ w.1 < w.2 ∧ w.2 ≤ (n : Int) ∧
        w.2 - w.1 ≤ (cs : Int)) ∧
      List.Chain' (windowStep cs ov) ws ∧
      ((n : Int) ≤ start → ws = []) ∧
      (start < (n : Int) →
        ws.head?.map Prod.fst = some start ∧
        ws.getLast?.map Prod.snd = some (n : Int)) := by
  have hcs1 : (1 : Int) ≤ (cs : Int) - (ov : Int) := by
    have := hov
    omega
  intro fuel
  induction fuel with
  | zero =>
    intro start h0 hn
    have hge : ¬ start < (n : Int) := by
      simp only [Nat.cast_zero, add_zero] at hn
      omega
    refine ⟨[], ?_, ?_, ?_, ?_, ?_⟩
    · simp [chunkWindows, hge]
    · intro w hw; cases hw
    · exact List.chain'_nil
    · intro _; rfl
    · intro h; exact absurd h hge
  | succ f ih =>
    intro start h0 hn
    by_cases hlt : start < (n : Int)
    · by_cases he : min (start + (cs : Int)) (n : Int) = (n : Int)
      · refine ⟨[(start, min (start + (cs : Int)) (n : Int))], ?_, ?_, ?_, ?_, ?_⟩
        · simp [chunkWindows, hlt, he]
        · intro w hw
          simp only [List.mem_singleton] at hw
          subst hw
          have hle : min (start + (cs : Int)) (n : Int) ≤ start + (cs : Int) :=
            min_le_left _ _
          constructor; · exact le_refl _
          constructor; · exact h0
          constructor; · simp only; rw [he]; exact hlt
          constructor; · simp only; rw [he]
          · simp only; omega
        · exact List.chain'_singleton _
        · intro h; exact absurd hlt (not_lt.mpr h)
        · intro _
          refine ⟨rfl, ?_⟩
          have h1 : ([(start, min (start + (cs : Int)) (n : Int))] :
              List (Int × Int)).getLast? =
              some (start, min (start + (cs : Int)) (n : Int)) := rfl
          rw [h1]
          show some (min (start + (cs : Int)) (n : Int)) = some (n : Int)
          exact congrArg some he
      · have hscn : start + (cs : Int) < (n : Int) := by
          rcases lt_or_ge (start + (cs : Int)) ((n : Int)) with h | h
          · exact h
          · exact absurd (min_eq_right h) he
        have hmineq : min (start + (cs : Int)) (n : Int) = start + (cs : Int) :=
          min_eq_left (le_of_lt hscn)
        have h0' : 0 ≤ start + ((cs : Int) - (ov : Int)) := by omega
        have hn' : (n : Int) ≤ (start + ((cs : Int) - (ov : Int))) + f := by
          push_cast at hn ⊢
          omega
        obtain ⟨ws, hws, hprop, hch, hemp, hlast⟩ :=
          ih (start + ((cs : Int) - (ov : Int))) h0' hn'
        have hlt' : start + ((cs : Int) - (ov : Int)) < (n : Int) := by omega
        obtain ⟨hhead, hlast'⟩ := hlast hlt'
        refine ⟨(start, min (start + (cs : Int)) (n : Int)) :: ws, ?_, ?_, ?_, ?_, ?_⟩
        · simp [chunkWindows, hlt, he, hws]
        · intro w hw
          rcases List.mem_cons.mp hw with h | h
          · subst h
            refine ⟨le_refl _, h0, ?_, ?_, ?_⟩
            · simp only; rw [hmineq]; omega
            · simp only; rw [hmineq]; omega
            · simp only; rw [hmineq]; omega
          · obtain ⟨ha, hb, hc, hd, hee⟩ := hprop w h
            exact ⟨by omega, hb, hc, hd, hee⟩
        · rw [List.chain'_cons']
          constructor
          · intro b hb
            cases hws' : ws.head? with
            | none => rw [hws'] at hb; cases hb
            | some c =>
              rw [hws'] at hb
              simp only [Option.mem_def, Option.some.injEq] at hb
              subst hb
              rw [hws'] at hhead
              simp only [Option.map_some', Option.some.injEq] at hhead
              constructor
              · simp only; rw [hmineq]
              · simp only; rw [hmineq, hhead]; omega
          · exact hch
        · intro h; exact absurd hlt (not_lt.mpr h)
        · intro _
          constructor
          · rfl
          · cases hws' : ws.head? with
            | none =>
              rw [hws'] at hhead; cases hhead
            | some c =>
              have hwsne : ws ≠ [] := by
                intro hnil; rw [hnil] at hws'; cases hws'
              obtain ⟨c', ws', rfl⟩ := List.exists_cons_of_ne_nil hwsne
              rw [List.getLast?_cons_cons]
              exact hlast'
    · refine ⟨[], ?_, ?_, ?_, ?_, ?_⟩
      · simp [chunkWindows, hlt]
      · intro w hw; cases hw
      · exact List.chain'_nil
      · intro _; rfl
      · intro h; exact absurd h hlt

/-- C4: with `0 ≤ overlap < chunk_size`, the chunk sequence returned by
`chunk_text` exists (the loop terminates), every chunk's token length is
at most `chunk_size` and no chunk is empty, consecutive windows step by
`chunk_size - overlap` so consecutive chunks overlap by exactly
`overlap` tokens (for every pair, hence in particular for all but
possibly the final pair), the final window ends exactly at the token
count, and empty text yields the empty sequence. -/
theorem chunk_text_shape (tokens : List Nat) (cs ov : Nat) (hov : ov < cs) :
    ChunkShape tokens cs ov := by
  obtain ⟨ws, hws, hprop, hch, hemp, hlast⟩ :=
    chunkWindows_sound tokens.length cs ov hov (tokens.length + 1) 0 (le_refl 0)
      (by push_cast; omega)
  refine ⟨ws, hws, ?_, ?_, hch, ?_, ?_⟩
  · unfold chunk_text
    rw [hws]
    rfl
  · intro w hw
    obtain ⟨_, hb, hc, hd, hee⟩ := hprop w hw
    have hlen : (sliceWindow tokens w).length = (w.2 - w.1).toNat := by
      unfold sliceWindow
      rw [List.length_take, List.length_drop]
      omega
    refine ⟨hb, hc, hd, ?_, ?_⟩
    · rw [hlen]; omega
    · intro hnil
      have : (sliceWindow tokens w).length = 0 := by rw [hnil]; rfl
      rw [hlen] at this
      omega
  · intro h
    apply hemp
    rw [h]
    simp
  · intro h
    have hpos : 0 < tokens.length := List.length_pos.mpr h
    exact (hlast (by exact_mod_cast hpos)).2

/-- Witness for C4 at a concrete input: five tokens, `chunk_size = 2`,
`overlap = 1`. -/
theorem chunk_text_shape_witness : ChunkShape [3, 1, 4, 1, 5] 2 1 :=
  chunk_text_shape [3, 1, 4, 1, 5] 2 1 (by decide)

theorem chunkWindows_stuck (n cs ov : Nat) (hcs : cs ≤ ov) (hn : cs < n) :
    ∀ (fuel : Nat) (start : Int), start ≤ 0 →
      chunkWindows n cs ov fuel start = none := by
  intro fuel
  induction fuel with
  | zero =>
    intro start hs
    have hlt : start < (n : Int) := by omega
    simp [chunkWindows, hlt]
  | succ f ih =>
    intro start hs
    have hlt : start < (n : Int) := by omega
    have hne : ¬ min (start + (cs : Int)) (n : Int) = (n : Int) := by
      have : start + (cs : Int) < (n : Int) := by omega
      rw [min_eq_left (le_of_lt this)]
      omega
    have hrec := ih (start + ((cs : Int) - (ov : Int))) (by omega)
    simp [chunkWindows, hlt, hne, hrec]

/-- C5 (counterexample to the claim): `chunk_text` with
`overlap = 1 ≥ 1 = chunk_size` on a one-token text does not fail with a
configuration error of any kind: it simply proceeds and returns the
chunk list. -/
theorem chunk_text_no_config_error : (1 : Nat) ≤ 1 ∧
    chunk_text [7] 1 1 = some [[7]] := by
  constructor
  · exact le_refl 1
  · rfl

/-- C5 (amended): `chunk_text` performs no validation of its parameters.
With `overlap ≥ chunk_size` it raises no error: when the text has at
most `chunk_size` tokens it returns normally (the single full window,
or the empty list on empty text), and when the text is longer than
`chunk_size` tokens the loop never terminates (modelled by `none`). -/
theorem chunk_text_overlap_ge (tokens : List Nat) (cs ov : Nat) (hcs : cs ≤ ov) :
    (tokens.length ≤ cs →
      chunk_text tokens cs ov = some (if tokens = [] then [] else [tokens])) ∧
    (cs < tokens.length → chunk_text tokens cs ov = none) := by
  constructor
  · intro hle
    by_cases hne : tokens = []
    · subst hne
      rfl
    · have hpos : 0 < tokens.length := List.length_pos.mpr hne
      have hmin : min ((0 : Int) + (cs : Int)) ((tokens.length : Int)) =
          (tokens.length : Int) := by
        rw [min_eq_right]
        omega
      rw [if_neg hne]
      unfold chunk_text
      have h0lt : (0 : Int) < (tokens.length : Int) := by exact_mod_cast hpos
      simp only [chunkWindows, if_pos h0lt, if_pos hmin, Option.map_some']
      congr 1
      unfold sliceWindow
      simp only [hmin, List.map_cons, List.map_nil]
      congr 1
      have : ((tokens.length : Int) - 0).toNat = tokens.length := by omega
      rw [Int.toNat_zero, List.drop_zero, this, List.take_length]
  · intro hgt
    unfold chunk_text
    rw [chunkWindows_stuck tokens.length cs ov hcs hgt (tokens.length + 1) 0
      (le_refl 0)]
    rfl

/-- Witness for C5's amended statement at `chunk_size = 1 ≤ 2 = overlap`:
a one-token text returns the single chunk, a two-token text diverges. -/
theorem chunk_text_overlap_ge_witness :
    (([7] : List Nat).length ≤ 1 →
      chunk_text [7] 1 2 = some (if ([7] : List Nat) = [] then [] else [[7]])) ∧
    (1 < ([7, 8] : List Nat).length → chunk_text [7, 8] 1 2 = none) :=
  ⟨(chunk_text_overlap_ge [7] 1 2 (by decide)).1,
   (chunk_text_overlap_ge [7, 8] 1 2 (by decide)).2⟩

/-! ### Data model -/

/-- One metadata entry as built by `update_embeddings`
(`incremental_chunk_embed.py` lines 173-180): the dict
`{id, ticker, accession, chunk_index, filing_date, form}`. -/
structure Entry where
  id : Nat
  ticker : String
  accession : String
  chunk_index : Nat
  filing_date : String
  form : String
deriving DecidableEq

/-- A corpus document record: one JSON file under `data/<ticker>/`,
holding the extracted text (as its token sequence) and descriptive
fields.  External collaborator data, never mutated by the core. -/
structure Record where
  accession : String
  filing_date : String
  form : String
  url : String
  cik : String
  text : List Nat
deriving DecidableEq

/-- A ChunkKey `(ticker, accession, chunk_index)`. -/
abbrev ChunkKey := String × String × Nat

/-- An embedding vector (integer components; the float arithmetic of the
external embedder is not what any claim is about). -/
abbrev Vec := List Int

/-- The FAISS `IndexIDMap` contents: `(id, vector)` pairs in insertion
order, extended by `add_with_ids`. -/
abbrev FIndex := List (Nat × Vec)

/-- The persisted pair of artifacts: `INDEX_FILE` and `METADATA_FILE`. -/
abbrev Files := FIndex × List Entry

def keyOf (e : Entry) : ChunkKey := (e.ticker, e.accession, e.chunk_index)

/-- `{(m['ticker'], m['accession'], m['chunk_index']) for m in metadata}`,
as a list whose membership is the set membership. -/
def keysOf (metadata : List Entry) : List ChunkKey := metadata.map keyOf

/-- `max(m['id'] for m in metadata)`: Python's `max` over the ids, which
raises `ValueError` on an empty metadata list (modelled by `none`). -/
def maxIdOf : List Entry → Option Nat
  | [] => none
  | e :: t => some (t.foldl (fun m x => Nat.max m x.id) e.id)

/-- The tuple `initialize_index()` returns: `index, metadata,
existing_keys, next_id`. -/
structure InitSt where
  index : Option FIndex
  metadata : List Entry
  existing_keys : List ChunkKey
  next_id : Nat
deriving DecidableEq

/-- `initialize_index()` (`incremental_chunk_embed.py` lines 65-80):
when both `METADATA_FILE` and `INDEX_FILE` exist (`pf = some files`) it
loads them, reconstructs the deduplication keys and
`next_id = max(id) + 1`; otherwise it starts fresh with no index, empty
metadata and `next_id = 0`.  The function performs no consistency check
between the two artifacts; its only failure is Python's `ValueError`
from `max()` on an empty metadata file, modelled by `none`. -/
def initialize_index : Option Files → Option InitSt
  | some (idx, md) =>
    match maxIdOf md with
    | some m => some ⟨some idx, md, keysOf md, m + 1⟩
    | none => none
  | none => some ⟨none, [], [], 0⟩

/-- C1 (counterexample to the claim): opening a persisted store whose
index holds two vectors (ids 0 and 1) while the metadata log holds one
entry (max id 0) does not fail: `initialize_index` returns this
disagreeing store unchanged, deriving `next_id` from the metadata
alone. -/
theorem initialize_index_accepts_mismatch :
    initialize_index (some ([(0, [1]), (1, [1])], [⟨0, "A", "X", 0, "", ""⟩])) =
      some ⟨some [(0, [1]), (1, [1])], [⟨0, "A", "X", 0, "", ""⟩],
        [("A", "X", 0)], 1⟩ ∧
    ([(0, [1]), (1, [1])] : FIndex).length ≠
      ([⟨0, "A", "X", 0, "", ""⟩] : List Entry).length := by
  constructor
  · rfl
  · decide

/-- C1 (amended): `initialize_index` with both files present performs no
corruption detection at all: for every loaded index and every nonempty
loaded metadata log — whether or not they agree on count or on maximum
id — it succeeds and returns them unchanged, with the keys and
`next_id` derived from the metadata alone.  (On an empty metadata file
it fails, but with Python's `ValueError` from `max()`, not with any
corruption error.) -/
theorem initialize_index_no_consistency_check (idx : FIndex) (md : List Entry)
    (hmd : md ≠ []) :
    ∃ m, maxIdOf md = some m ∧
      initialize_index (some (idx, md)) = some ⟨some idx, md, keysOf md, m + 1⟩ := by
  cases md with
  | nil => exact absurd rfl hmd
  | cons e t => exact ⟨_, rfl, rfl⟩

/-- Witness for C1's amended statement at a concrete mismatched store
(one vector, one entry of id 5, counts and max ids both disagreeing). -/
theorem initialize_index_no_consistency_check_witness :
    ∃ m, maxIdOf [⟨5, "B", "Y", 1, "", ""⟩] = some m ∧
      initialize_index (some ([(0, [2]), (3, [4])], [⟨5, "B", "Y", 1, "", ""⟩])) =
        some ⟨some [(0, [2]), (3, [4])], [⟨5, "B", "Y", 1, "", ""⟩],
          keysOf [⟨5, "B", "Y", 1, "", ""⟩], m + 1⟩ :=
  initialize_index_no_consistency_check [(0, [2]), (3, [4])]
    [⟨5, "B", "Y", 1, "", ""⟩] (by decide)

/-! ### Persistence -/

/-- The two artifact files on disk; `none` = the file does not exist. -/
structure FsState where
  indexFile : Option FIndex
  metaFile : Option (List Entry)
deriving DecidableEq

/-- A single file-system write performed by the persistence layer. -/
inductive FsOp where
  | writeIndex (i : FIndex)
  | writeMeta (m : List Entry)
deriving DecidableEq

/-- `save_index_metadata(index, metadata)` (`incremental_chunk_embed.py`
lines 83-88) as its sequence of file-system operations:
`faiss.write_index(index, INDEX_FILE)` followed by
`json.dump(metadata, open(METADATA_FILE, 'w'))` — two direct, separate
writes to the final paths.  No temporary file and no rename appears in
the function. -/
def save_index_metadata (index : FIndex) (metadata : List Entry) : List FsOp :=
  [FsOp.writeIndex index, FsOp.writeMeta metadata]

def applyOp (s : FsState) : FsOp → FsState
  | FsOp.writeIndex i => ⟨some i, s.metaFile⟩
  | FsOp.writeMeta m => ⟨s.indexFile, some m⟩

/-- Every file-system state a reader can observe while an operation
sequence runs: the state before each operation and after the last. -/
def statesDuring (s : FsState) (ops : List FsOp) : List FsState :=
  ops.scanl applyOp s

/-- C6 (counterexample to the claim): during one concrete
`save_index_metadata` call that extends a one-entry store, a reader can
observe the state in which the index file already holds the new, longer
vector list while the metadata file still holds the old, shorter log —
one artifact updated without the other. -/
theorem save_index_metadata_exposes_mixed_state :
    (⟨some [(0, [1]), (1, [9])], some [⟨0, "A", "X", 0, "", ""⟩]⟩ : FsState) ∈
      statesDuring ⟨some [(0, [1])], some [⟨0, "A", "X", 0, "", ""⟩]⟩
        (save_index_metadata [(0, [1]), (1, [9])]
          [⟨0, "A", "X", 0, "", ""⟩, ⟨1, "A", "X", 1, "", ""⟩]) ∧
    ([(0, [1]), (1, [9])] : FIndex) ≠ [(0, [1])] ∧
    ([⟨0, "A", "X", 0, "", ""⟩, ⟨1, "A", "X", 1, "", ""⟩] : List Entry) ≠
      [⟨0, "A", "X", 0, "", ""⟩] := by
  refine ⟨?_, by decide, by decide⟩
  show _ ∈ statesDuring _ _
  decide

/-- C6 (amended): `save_index_metadata` is not atomic: it writes the
index file and then the metadata file with two direct, separate writes
and no write-temp-then-rename step, so for every prior file-system
state the observable states are exactly: the prior state, then the new
index paired with the *old* metadata file, then both new. -/
theorem save_index_metadata_write_sequence (s : FsState) (i : FIndex)
    (m : List Entry) :
    statesDuring s (save_index_metadata i m) =
      [s, ⟨some i, s.metaFile⟩, ⟨some i, some m⟩] := rfl

/-! ### Similarity search -/

/-- Inner product of two vectors (`faiss.IndexFlatIP`). -/
def dot (a b : Vec) : Int := (List.zipWith (fun x y => x * y) a b).sum

/-- The result order of the search: descending score, ties broken by
ascending id. -/
def scoreOrder (a b : Int × Int) : Prop :=
  b.2 < a.2 ∨ (a.2 = b.2 ∧ a.1 ≤ b.1)

instance : DecidableRel scoreOrder := fun a b => by
  unfold scoreOrder
  infer_instance

instance : IsTotal (Int × Int) scoreOrder :=
  ⟨by intro a b; unfold scoreOrder; omega⟩

instance : IsTrans (Int × Int) scoreOrder :=
  ⟨by intro a b c hab hbc; unfold scoreOrder at hab hbc ⊢; omega⟩

/-- Modelled from the spec: `index.search(arr, k)` is implemented by the
external FAISS library (`IndexIDMap` over `IndexFlatIP`), not by
repository code.  Per the spec's VectorStore.search contract it is
modelled as exact top-k inner-product search: score every stored
`(id, vector)` pair against the query, sort by descending score with
ties broken by ascending id, take `k`, and pad with the FAISS no-hit
marker `id = -1` (score 0) when the store holds fewer than `k` vectors,
so that exactly `k` `(id, score)` rows come back. -/
def faissSearch (store : FIndex) (q : Vec) (k : Nat) : List (Int × Int) :=
  (List.insertionSort scoreOrder
      (store.map (fun p => ((p.1 : Int), dot p.2 q)))).take k ++
    List.replicate (k - store.length) (-1, 0)

/-- The rows of `faissSearch` that carry a real hit (`vid ≥ 0`); the
retrieval loops of both files skip the `-1` padding rows. -/
def searchHits (store : FIndex) (q : Vec) (k : Nat) : List (Int × Int) :=
  (faissSearch store q k).filter (fun p => 0 ≤ p.1)

theorem mem_sorted_scored (store : FIndex) (q : Vec) (p : Int × Int)
    (hp : p ∈ List.insertionSort scoreOrder
      (store.map (fun s => ((s.1 : Int), dot s.2 q)))) :
    ∃ iv ∈ store, p = ((iv.1 : Int), dot iv.2 q) := by
  rw [List.mem_insertionSort] at hp
  obtain ⟨iv, hiv, heq⟩ := List.mem_map.mp hp
  exact ⟨iv, hiv, heq.symm⟩

theorem searchHits_eq_take (store : FIndex) (q : Vec) (k : Nat) :
    searchHits store q k =
      (List.insertionSort scoreOrder
        (store.map (fun s => ((s.1 : Int), dot s.2 q)))).take k := by
  unfold searchHits faissSearch
  rw [List.filter_append]
  have hrep : ∀ n : Nat,
      (List.replicate n ((-1 : Int), (0 : Int))).filter (fun p => 0 ≤ p.1) = [] := by
    intro n
    induction n with
    | zero => rfl
    | succ m ih => simp [List.replicate_succ, List.filter_cons, ih]
  rw [hrep]
  rw [List.append_nil]
  apply List.filter_eq_self.mpr
  intro p hp
  have hmem := (List.take_sublist k _).subset hp
  obtain ⟨iv, _, heq⟩ := mem_sorted_scored store q p hmem
  subst heq
  simp

/-- C7 (modelled search contract): the search returns exactly `k` rows,
of which the real hits number `min k (size of the store)` — so at most
`k`, fewer than `k` when the store holds fewer than `k` vectors, and
none when the store is empty.  The real hits are pairwise ordered by
descending inner product with ties broken by ascending id, and every
hit is the id and exact inner-product score of a stored vector. -/
theorem search_contract (store : FIndex) (q : Vec) (k : Nat) :
    (faissSearch store q k).length = k ∧
    (searchHits store q k).length = min k store.length ∧
    List.Pairwise scoreOrder (searchHits store q k) ∧
    (∀ p ∈ searchHits store q k,
      ∃ iv ∈ store, p.1 = (iv.1 : Int) ∧ p.2 = dot iv.2 q) ∧
    (store = [] → searchHits store q k = []) := by
  have hlen : (List.insertionSort scoreOrder
      (store.map (fun s => ((s.1 : Int), dot s.2 q)))).length = store.length := by
    rw [List.length_insertionSort, List.length_map]
  refine ⟨?_, ?_, ?_, ?_, ?_⟩
  · unfold faissSearch
    rw [List.length_append, List.length_take, List.length_replicate, hlen]
    omega
  · rw [searchHits_eq_take, List.length_take, hlen]
  · rw [searchHits_eq_take]
    exact (List.sorted_insertionSort scoreOrder _).sublist (List.take_sublist k _)
  · intro p hp
    rw [searchHits_eq_take] at hp
    obtain ⟨iv, hiv, heq⟩ :=
      mem_sorted_scored store q p ((List.take_sublist k _).subset hp)
    exact ⟨iv, hiv, by rw [heq], by rw [heq]⟩
  · intro h
    subst h
    rw [searchHits_eq_take]
    simp

/-! ### Retrieval (`query_rag.retrieve`) -/

/-- What the uncaught Python exceptions of the hit loop would be:
`IndexError` from `metadata[vid]`, and `IndexError` from
`chunks[entry['chunk_index']]` (only `FileNotFoundError` is caught). -/
inductive Fault where
  | metaBounds
  | chunkBounds
deriving DecidableEq

/-- One returned hit of `query_rag.retrieve`: the copied metadata entry
plus `score`, the rehydrated chunk `text`, and `form`, `url`, `cik`
from the source record. -/
structure Hit where
  entry : Entry
  score : Int
  text : List Nat
  form : String
  url : String
  cik : String
deriving DecidableEq

/-- One iteration of the hit loop of `query_rag.retrieve` (lines
76-105): `if vid < 0 or vid >= len(metadata): continue`; otherwise
`metadata[vid]` is read (out of bounds would be `Fault.metaBounds`),
the record file `data/<ticker>/<accession>.json` is opened —
`FileNotFoundError` (`fetch … = none`) is caught, a warning is logged
and just this hit is skipped — the chunk list is re-derived with the
canonical configuration and `chunks[entry['chunk_index']]` selected
(out of range would be the uncaught `Fault.chunkBounds`), and the hit
is appended. -/
def retrieveStep (fetch : String → String → Option Record)
    (metadata : List Entry) (hits : List Hit) (p : Int × Int) :
    Except Fault (List Hit) :=
  if p.1 < 0 ∨ (metadata.length : Int) ≤ p.1 then Except.ok hits
  else
    match metadata.get? p.1.toNat with
    | none => Except.error Fault.metaBounds
    | some entry =>
      match fetch entry.ticker entry.accession with
      | none => Except.ok hits
      | some record =>
        match (chunksOf record.text).get? entry.chunk_index with
        | none => Except.error Fault.chunkBounds
        | some ctext =>
          Except.ok (hits ++
            [⟨entry, p.2, ctext, record.form, record.url, record.cik⟩])

/-- The `for rank, vid in enumerate(ids[0])` loop: left fold of
`retrieveStep` in which an uncaught exception aborts the whole call. -/
def retrieveLoop (fetch : String → String → Option Record)
    (metadata : List Entry) :
    List (Int × Int) → List Hit → Except Fault (List Hit)
  | [], hits => Except.ok hits
  | p :: t, hits =>
    match retrieveStep fetch metadata hits p with
    | Except.ok hits' => retrieveLoop fetch metadata t hits'
    | Except.error e => Except.error e

/-- `query_rag.retrieve(query, k)` (lines 55-107) after the external
steps (the persisted files are loaded into `metadata` and `store`, the
query is embedded and `faiss.normalize_L2`-scaled into `qv`): search
the index for `k` rows and run the hit loop over them.  `fetch` models
reading `data/<ticker>/<accession>.json` (`none` =
`FileNotFoundError`). -/
def retrieve (fetch : String → String → Option Record)
    (metadata : List Entry) (store : FIndex) (qv : Vec) (k : Nat) :
    Except Fault (List Hit) :=
  retrieveLoop fetch metadata (faissSearch store qv k) []

/-- Does a retrieval outcome consist of the metadata-indexing fault? -/
def isMetaBoundsFault : Except Fault (List Hit) → Bool
  | Except.error Fault.metaBounds => true
  | _ => false

theorem retrieveStep_error_is_chunkBounds (fetch : String → String → Option Record)
    (metadata : List Entry) (hits : List Hit) (p : Int × Int) (e : Fault)
    (h : retrieveStep fetch metadata hits p = Except.error e) :
    e = Fault.chunkBounds := by
  unfold retrieveStep at h
  split at h
  · cases h
  · rename_i hg
    push_neg at hg
    split at h
    · rename_i hget
      have := List.get?_eq_none.mp hget
      omega
    · split at h
      · cases h
      · split at h
        · injection h with h2
          exact h2.symm
        · cases h

/-- C10: the hit loop of `query_rag.retrieve` only ever dereferences
`metadata[vid]` behind the guard `0 ≤ vid < len(metadata)`, so for
every metadata list, every store (even one holding more vectors than
the metadata log has entries, or negative padding ids), every query and
every `k`, the metadata lookup never faults; rows whose id is negative
or at or beyond the metadata length are silently skipped. -/
theorem retrieve_meta_lookup_safe (fetch : String → String → Option Record)
    (metadata : List Entry) (store : FIndex) (qv : Vec) (k : Nat) :
    isMetaBoundsFault (retrieve fetch metadata store qv k) = false ∧
    (∀ (hits : List Hit) (p : Int × Int),
      p.1 < 0 ∨ (metadata.length : Int) ≤ p.1 →
      retrieveStep fetch metadata hits p = Except.ok hits) := by
  constructor
  · unfold retrieve
    have hloop : ∀ (l : List (Int × Int)) (acc : List Hit),
        isMetaBoundsFault (retrieveLoop fetch metadata l acc) = false := by
      intro l
      induction l with
      | nil => intro acc; rfl
      | cons p t ih =>
        intro acc
        unfold retrieveLoop
        cases hstep : retrieveStep fetch metadata acc p with
        | ok acc' => exact ih acc'
        | error e =>
          have := retrieveStep_error_is_chunkBounds fetch metadata acc p e hstep
          subst this
          rfl
    exact hloop _ _
  · intro hits p hg
    unfold retrieveStep
    rw [if_pos hg]

/-- What one search row contributes to the result list when no uncaught
exception occurs: `none` when the loop skips the row (padding id, id at
or beyond the metadata length, or missing record file), `some hit`
otherwise. -/
def processHit (fetch : String → String → Option Record)
    (metadata : List Entry) (p : Int × Int) : Option Hit :=
  if p.1 < 0 ∨ (metadata.length : Int) ≤ p.1 then none
  else
    match metadata.get? p.1.toNat with
    | none => none
    | some entry =>
      match fetch entry.ticker entry.accession with
      | none => none
      | some record =>
        match (chunksOf record.text).get? entry.chunk_index with
        | none => none
        | some ctext =>
          some ⟨entry, p.2, ctext, record.form, record.url, record.cik⟩

/-- Every metadata entry whose record `fetch` can deliver has its
`chunk_index` inside the re-derived chunk list (rehydration stays in
range, so the uncaught `IndexError` of `chunks[chunk_index]` does not
fire). -/
def ChunkIndexOk (fetch : String → String → Option Record)
    (metadata : List Entry) : Prop :=
  ∀ e ∈ metadata, ∀ r, fetch e.ticker e.accession = some r →
    e.chunk_index < (chunksOf r.text).length

theorem retrieveStep_eq_processHit (fetch : String → String → Option Record)
    (metadata : List Entry) (hok : ChunkIndexOk fetch metadata)
    (hits : List Hit) (p : Int × Int) :
    retrieveStep fetch metadata hits p =
      Except.ok (hits ++ (processHit fetch metadata p).toList) := by
  by_cases hg : p.1 < 0 ∨ (metadata.length : Int) ≤ p.1
  · unfold retrieveStep processHit
    rw [if_pos hg, if_pos hg]
    simp
  · have hg2 := hg
    push_neg at hg2
    have hlt : p.1.toNat < metadata.length := by omega
    have hget : metadata.get? p.1.toNat =
        some (metadata.get ⟨p.1.toNat, hlt⟩) := List.get?_eq_get hlt
    have hmem : metadata.get ⟨p.1.toNat, hlt⟩ ∈ metadata := List.get_mem _ _ hlt
    unfold retrieveStep processHit
    rw [if_neg hg, if_neg hg]
    simp only [hget]
    cases hf : fetch (metadata.get ⟨p.1.toNat, hlt⟩).ticker
        (metadata.get ⟨p.1.toNat, hlt⟩).accession with
    | none => simp
    | some record =>
      have hci : (metadata.get ⟨p.1.toNat, hlt⟩).chunk_index <
          (chunksOf record.text).length := hok _ hmem record hf
      have hc : (chunksOf record.text).get?
          (metadata.get ⟨p.1.toNat, hlt⟩).chunk_index =
          some ((chunksOf record.text).get ⟨_, hci⟩) := List.get?_eq_get hci
      simp only [hc]
      simp

theorem retrieveLoop_eq (fetch : String → String → Option Record)
    (metadata : List Entry) (hok : ChunkIndexOk fetch metadata) :
    ∀ (l : List (Int × Int)) (acc : List Hit),
      retrieveLoop fetch metadata l acc =
        Except.ok (acc ++ l.filterMap (processHit fetch metadata)) := by
  intro l
  induction l with
  | nil => intro acc; simp [retrieveLoop]
  | cons p t ih =>
    intro acc
    unfold retrieveLoop
    simp only [retrieveStep_eq_processHit fetch metadata hok acc p]
    rw [ih]
    cases hp : processHit fetch metadata p <;>
      simp [hp, List.filterMap_cons]

theorem processHit_score (fetch : String → String → Option Record)
    (metadata : List Entry) (p : Int × Int) (h : Hit)
    (hp : processHit fetch metadata p = some h) : h.score = p.2 := by
  unfold processHit at hp
  split at hp
  · cases hp
  · split at hp
    · cases hp
    · split at hp
      · cases hp
      · split at hp
        · cases hp
        · injection hp with hp
          subst hp
          rfl

theorem processHit_fetch_isSome (fetch : String → String → Option Record)
    (metadata : List Entry) (p : Int × Int) (h : Hit)
    (hp : processHit fetch metadata p = some h) :
    (fetch h.entry.ticker h.entry.accession).isSome = true := by
  unfold processHit at hp
  split at hp
  · cases hp
  · split at hp
    · cases hp
    · rename_i entry hget
      split at hp
      · cases hp
      · rename_i record hf
        split at hp
        · cases hp
        · rename_i ctext hc
          injection hp with hp
          subst hp
          simp [hf]

theorem filterMap_map_sublist {α β γ : Type} (f : α → Option β) (g : β → γ)
    (h : α → γ) (hfg : ∀ a b, f a = some b → g b = h a) :
    ∀ l : List α, List.Sublist ((l.filterMap f).map g) (l.map h) := by
  intro l
  induction l with
  | nil => simp
  | cons a t ih =>
    cases hfa : f a with
    | none =>
      simp only [List.filterMap_cons, hfa, List.map_cons]
      exact ih.cons _
    | some b =>
      simp only [List.filterMap_cons, hfa, List.map_cons]
      rw [hfg a b hfa]
      exact ih.cons₂ _

theorem filterMap_processHit_entries (fetch : String → String → Option Record)
    (metadata : List Entry) (hok : ChunkIndexOk fetch metadata) :
    ∀ l : List (Int × Int),
      (∀ p ∈ l, 0 ≤ p.1 ∧ p.1 < (metadata.length : Int)) →
      (l.filterMap (processHit fetch metadata)).map Hit.entry =
        (l.filterMap (fun p => metadata.get? p.1.toNat)).filter
          (fun e => (fetch e.ticker e.accession).isSome) := by
  intro l
  induction l with
  | nil => intro _; rfl
  | cons p t ih =>
    intro hb
    have hp := hb p (List.mem_cons_self p t)
    have hrest : ∀ q ∈ t, 0 ≤ q.1 ∧ q.1 < (metadata.length : Int) :=
      fun q hq => hb q (List.mem_cons_of_mem p hq)
    have hg : ¬ (p.1 < 0 ∨ (metadata.length : Int) ≤ p.1) := by omega
    have hlt : p.1.toNat < metadata.length := by omega
    have hget : metadata.get? p.1.toNat =
        some (metadata.get ⟨p.1.toNat, hlt⟩) := List.get?_eq_get hlt
    have hmem : metadata.get ⟨p.1.toNat, hlt⟩ ∈ metadata := List.get_mem _ _ hlt
    cases hf : fetch (metadata.get ⟨p.1.toNat, hlt⟩).ticker
        (metadata.get ⟨p.1.toNat, hlt⟩).accession with
    | none =>
      have hph : processHit fetch metadata p = none := by
        unfold processHit
        rw [if_neg hg]
        simp only [hget, hf]
      simp only [List.filterMap_cons, hph, hget, List.filter_cons, hf]
      simp only [Option.isSome_none, Bool.false_eq_true, if_false]
      exact ih hrest
    | some record =>
      have hci : (metadata.get ⟨p.1.toNat, hlt⟩).chunk_index <
          (chunksOf record.text).length := hok _ hmem record hf
      have hc : (chunksOf record.text).get?
          (metadata.get ⟨p.1.toNat, hlt⟩).chunk_index =
          some ((chunksOf record.text).get ⟨_, hci⟩) := List.get?_eq_get hci
      have hph : processHit fetch metadata p =
          some ⟨metadata.get ⟨p.1.toNat, hlt⟩, p.2,
            (chunksOf record.text).get ⟨_, hci⟩,
            record.form, record.url, record.cik⟩ := by
        unfold processHit
        rw [if_neg hg]
        simp only [hget, hf, hc]
      simp only [List.filterMap_cons, hph, hget, List.filter_cons, hf,
        List.map_cons]
      simp only [Option.isSome_some, if_true]
      rw [ih hrest]

theorem filterMap_processHit_replicate (fetch : String → String → Option Record)
    (metadata : List Entry) (n : Nat) :
    (List.replicate n ((-1 : Int), (0 : Int))).filterMap
      (processHit fetch metadata) = [] := by
  induction n with
  | zero => rfl
  | succ m ih =>
    rw [List.replicate_succ, List.filterMap_cons]
    have hnone : processHit fetch metadata ((-1 : Int), (0 : Int)) = none := by
      unfold processHit
      rw [if_pos]
      left
      decide
    rw [hnone]
    exact ih

theorem searchHits_bounds (metadata : List Entry) (store : FIndex) (qv : Vec)
    (k : Nat) (hstore : ∀ iv ∈ store, iv.1 < metadata.length) :
    ∀ p ∈ searchHits store qv k, 0 ≤ p.1 ∧ p.1 < (metadata.length : Int) := by
  intro p hp
  rw [searchHits_eq_take] at hp
  obtain ⟨iv, hiv, heq⟩ :=
    mem_sorted_scored store qv p ((List.take_sublist k _).subset hp)
  subst heq
  refine ⟨by simp, ?_⟩
  show (iv.1 : Int) < (metadata.length : Int)
  exact_mod_cast hstore iv hiv

/-- C9: whenever every stored id is backed by a metadata entry and
rehydration stays in range for the records that do exist, `retrieve`
returns successfully even if record files are missing: the hits whose
backing record `fetch` cannot deliver are dropped (exactly the entries
with `isSome = false` are filtered out), every returned hit is backed
by an existing record, and the surviving hits keep the search's
descending score order. -/
theorem retrieve_drops_missing_sources (fetch : String → String → Option Record)
    (metadata : List Entry) (store : FIndex) (qv : Vec) (k : Nat)
    (hstore : ∀ iv ∈ store, iv.1 < metadata.length)
    (hok : ChunkIndexOk fetch metadata) :
    ∃ hits, retrieve fetch metadata store qv k = Except.ok hits ∧
      hits.map Hit.entry =
        ((searchHits store qv k).filterMap
          (fun p => metadata.get? p.1.toNat)).filter
          (fun e => (fetch e.ticker e.accession).isSome) ∧
      List.Pairwise (fun a b : Int => b ≤ a) (hits.map Hit.score) ∧
      (∀ h ∈ hits, (fetch h.entry.ticker h.entry.accession).isSome = true) := by
  refine ⟨(searchHits store qv k).filterMap (processHit fetch metadata),
    ?_, ?_, ?_, ?_⟩
  · unfold retrieve
    rw [retrieveLoop_eq fetch metadata hok]
    rw [List.nil_append]
    congr 1
    unfold faissSearch
    rw [List.filterMap_append, filterMap_processHit_replicate, List.append_nil]
    rw [searchHits_eq_take]
  · exact filterMap_processHit_entries fetch metadata hok _
      (searchHits_bounds metadata store qv k hstore)
  · have hsub : List.Sublist
        (((searchHits store qv k).filterMap (processHit fetch metadata)).map
          Hit.score)
        ((searchHits store qv k).map Prod.snd) :=
      filterMap_map_sublist _ _ _
        (fun p h hp => processHit_score fetch metadata p h hp) _
    have hsorted : List.Pairwise scoreOrder (searchHits store qv k) := by
      rw [searchHits_eq_take]
      exact (List.sorted_insertionSort scoreOrder _).sublist
        (List.take_sublist k _)
    have hmap : List.Pairwise (fun a b : Int => b ≤ a)
        ((searchHits store qv k).map Prod.snd) :=
      hsorted.map _ (fun a b hab => by unfold scoreOrder at hab; omega)
    exact hmap.sublist hsub
  · intro h hh
    obtain ⟨p, hp, hph⟩ := List.mem_filterMap.mp hh
    exact processHit_fetch_isSome fetch metadata p h hph

/-- Concrete retrieval scenario for the C9 witness: two indexed chunks,
of which only the first still has its record file on disk. -/
def cFetch : String → String → Option Record :=
  fun t a => if a = "X" then some ⟨"X", "", "10-K", "u", "c", [5, 6]⟩ else none

def cMeta : List Entry := [⟨0, "A", "X", 0, "", ""⟩, ⟨1, "A", "Y", 0, "", ""⟩]

def cStore : FIndex := [(0, [1, 0]), (1, [0, 1])]

/-- Witness for C9: on the concrete two-vector store with one missing
record file, the hypotheses hold and the theorem applies. -/
theorem retrieve_drops_missing_sources_witness :
    ∃ hits, retrieve cFetch cMeta cStore [1, 0] 2 = Except.ok hits ∧
      hits.map Hit.entry =
        ((searchHits cStore [1, 0] 2).filterMap
          (fun p => cMeta.get? p.1.toNat)).filter
          (fun e => (cFetch e.ticker e.accession).isSome) ∧
      List.Pairwise (fun a b : Int => b ≤ a) (hits.map Hit.score) ∧
      (∀ h ∈ hits, (cFetch h.entry.ticker h.entry.accession).isSome = true) := by
  apply retrieve_drops_missing_sources cFetch cMeta cStore [1, 0] 2
  · decide
  · intro e he r hr
    simp only [cFetch] at hr
    simp only [cMeta] at he
    rcases List.mem_cons.mp he with rfl | he2
    · rw [if_pos rfl] at hr
      injection hr with hr
      subst hr
      decide
    · rcases List.mem_cons.mp he2 with rfl | he3
      · rw [if_neg (by decide)] at hr
        cases hr
      · cases he3

/-! ### The incremental builder (`update_embeddings`) -/

/-- The corpus under `DATA_DIR`: one `(ticker, records)` pair per ticker
directory, one `Record` per JSON filing file, in directory-listing
order.  (Non-directories and non-`.json` files are skipped by the
source loop and do not appear.) -/
abbrev Corpus := List (String × List Record)

/-- The sub-batches of `for i in range(0, len(chunks_batch), BATCH_SIZE)`
with `BATCH_SIZE = 100`, fuel-indexed (fuel `≥ length` suffices). -/
def subBatches : Nat → List (List Nat) → List (List (List Nat))
  | 0, _ => []
  | _, [] => []
  | f + 1, c :: t => ((c :: t).take 100) :: subBatches f ((c :: t).drop 100)

/-- The staged chunk texts split into `BATCH_SIZE = 100` sub-batches. -/
def blocks100 (l : List (List Nat)) : List (List (List Nat)) :=
  subBatches l.length l

/-- `embed_texts` applied sub-batch by sub-batch inside
`process_chunk_batch` (lines 99-103): the per-call embedder `F` (one
`openai.embeddings.create` call, which may fail with an `ε`) is run on
each sub-batch and the resulting vectors are concatenated in order; the
first failing call aborts and propagates before anything else
happens. -/
def embedBatches {ε : Type} (F : List (List Nat) → Except ε (List Vec)) :
    List (List (List Nat)) → Except ε (List Vec)
  | [] => Except.ok []
  | b :: bs =>
    match F b with
    | Except.error e => Except.error e
    | Except.ok vs =>
      match embedBatches F bs with
      | Except.error e => Except.error e
      | Except.ok rest => Except.ok (vs ++ rest)

/-- `process_chunk_batch(chunks_batch, entries_batch, index, metadata)`
(lines 91-125): an empty batch returns the store unchanged; otherwise
all sub-batches are embedded first (a failure propagates before the
store is touched), the empty index is built if none exists yet (its
dimensionality taken from the first embedding), the vectors are
L2-normalized in place (`nrm` models the external
`faiss.normalize_L2`), `index.add_with_ids(arr, ids)` appends the
normalized vectors under the entry ids, and `metadata.extend` appends
the entries. -/
def process_chunk_batch {ε : Type} (F : List (List Nat) → Except ε (List Vec))
    (nrm : Vec → Vec) (chunks_batch : List (List Nat))
    (entries_batch : List Entry) (index : Option FIndex)
    (metadata : List Entry) : Except ε (Option FIndex × List Entry) :=
  if chunks_batch.isEmpty then Except.ok (index, metadata)
  else
    match embedBatches F (blocks100 chunks_batch) with
    | Except.error e => Except.error e
    | Except.ok embs =>
      Except.ok (some ((index.getD []) ++
          (entries_batch.map Entry.id).zip (embs.map nrm)),
        metadata ++ entries_batch)

/-- The mutable state of one `update_embeddings` run, plus the on-disk
state (`persisted`: what the two files currently hold, `none` = absent)
and two pieces of instrumentation that make the run's external
behaviour observable: `saves` is the trace of `save_index_metadata`
calls, `embedded` counts the chunk texts sent to the embedder. -/
structure BuildSt where
  index : Option FIndex
  metadata : List Entry
  current_chunks : List (List Nat)
  current_entries : List Entry
  next_id : Nat
  total_new : Nat
  processed : Nat
  persisted : Option Files
  saves : List Files
  embedded : Nat
deriving DecidableEq

/-- A run step either succeeds with the new state or propagates the
embedder's exception; the process then dies with the in-memory state,
so the error carries what remains: the on-disk state and the
persistence trace at the moment of failure. -/
abbrev BuildRes (ε : Type) := Except (ε × Option Files × List Files) BuildSt

/-- The effect of a `save_index_metadata(index, metadata)` call inside
the driver: both files now hold the in-memory pair, and the call is
appended to the persistence trace.  (`index` is not `None` at any save:
the driver saves only after a successful flush built it.) -/
def doSave (st : BuildSt) : BuildSt :=
  { st with
    persisted := some (st.index.getD [], st.metadata),
    saves := st.saves ++ [(st.index.getD [], st.metadata)] }

/-- One flush: `process_chunk_batch(current_chunks, current_entries,
index, metadata)` replacing the in-memory store on success; on failure
the exception propagates with the on-disk state unchanged. -/
def flushBatch {ε : Type} (F : List (List Nat) → Except ε (List Vec))
    (nrm : Vec → Vec) (st : BuildSt) : BuildRes ε :=
  match process_chunk_batch F nrm st.current_chunks st.current_entries
      st.index st.metadata with
  | Except.error e => Except.error (e, st.persisted, st.saves)
  | Except.ok (i, m) =>
    Except.ok { st with
      index := i,
      metadata := m,
      embedded := st.embedded + st.current_chunks.length }

/-- Staging one new chunk (lines 171-182): append the chunk text and a
provisional entry with `id = next_id`, then `next_id += 1` and
`total_new_chunks += 1`. -/
def stageChunk (ticker : String) (rec : Record) (p : Nat × List Nat)
    (st : BuildSt) : BuildSt :=
  { st with
    current_chunks := st.current_chunks ++ [p.2],
    current_entries := st.current_entries ++
      [⟨st.next_id, ticker, rec.accession, p.1, rec.filing_date, rec.form⟩],
    next_id := st.next_id + 1,
    total_new := st.total_new + 1 }

/-- `processed_chunks += len(current_chunks)` followed by clearing the
staging buffers (lines 187-191). -/
def afterFlushClear (st : BuildSt) : BuildSt :=
  { st with
    processed := st.processed + st.current_chunks.length,
    current_chunks := [],
    current_entries := [] }

/-- The body of `for idx, chunk in enumerate(chunks)` (lines 166-197):
the ChunkKey is checked against `existing_keys` (which is never updated
during the run); a known key is skipped, a new one staged.  When the
staging buffer reaches `MAX_CHUNKS_IN_MEMORY` the batch is flushed, the
buffers are cleared, and once `processed_chunks` reaches
`SAVE_PROGRESS_EVERY` the store is checkpointed with
`save_index_metadata` and `processed_chunks` reset. -/
def stepChunk {ε : Type} (F : List (List Nat) → Except ε (List Vec))
    (nrm : Vec → Vec) (existing_keys : List ChunkKey)
    (maxMem saveEvery : Nat) (ticker : String) (rec : Record)
    (st : BuildSt) (p : Nat × List Nat) : BuildRes ε :=
  if (ticker, rec.accession, p.1) ∈ existing_keys then Except.ok st
  else
    if maxMem ≤ (stageChunk ticker rec p st).current_chunks.length then
      match flushBatch F nrm (stageChunk ticker rec p st) with
      | Except.error e => Except.error e
      | Except.ok st2 =>
        if saveEvery ≤ (afterFlushClear st2).processed then
          Except.ok { doSave (afterFlushClear st2) with processed := 0 }
        else Except.ok (afterFlushClear st2)
    else Except.ok (stageChunk ticker rec p st)

/-- Sequential execution of one loop over a list, aborting on the first
propagated exception. -/
def runList {ε α : Type} (f : BuildSt → α → BuildRes ε) :
    List α → BuildSt → BuildRes ε
  | [], st => Except.ok st
  | a :: t, st =>
    match f st a with
    | Except.error e => Except.error e
    | Except.ok st' => runList f t st'

/-- One filing file (lines 149-201): load the record, chunk its text
with the canonical configuration, and run the per-chunk loop over
`enumerate(chunks)`. -/
def stepRecord {ε : Type} (F : List (List Nat) → Except ε (List Vec))
    (nrm : Vec → Vec) (existing_keys : List ChunkKey)
    (maxMem saveEvery : Nat) (ticker : String)
    (st : BuildSt) (rec : Record) : BuildRes ε :=
  runList (stepChunk F nrm existing_keys maxMem saveEvery ticker rec)
    (chunksOf rec.text).enum st

/-- One ticker directory (lines 144-201): run the per-file loop over its
filing records. -/
def stepTicker {ε : Type} (F : List (List Nat) → Except ε (List Vec))
    (nrm : Vec → Vec) (existing_keys : List ChunkKey)
    (maxMem saveEvery : Nat)
    (st : BuildSt) (td : String × List Record) : BuildRes ε :=
  runList (stepRecord F nrm existing_keys maxMem saveEvery td.1) td.2 st

/-- Lines 203-206: after the corpus walk, flush any remaining staged
chunks (the buffers are not cleared afterwards — the run ends). -/
def finalFlush {ε : Type} (F : List (List Nat) → Except ε (List Vec))
    (nrm : Vec → Vec) (st : BuildSt) : BuildRes ε :=
  if st.current_chunks.isEmpty then Except.ok st
  else
    match flushBatch F nrm st with
    | Except.error e => Except.error e
    | Except.ok st' =>
      Except.ok { st' with
        processed := st'.processed + st'.current_chunks.length }

/-- Why a run can end without a final state. -/
inductive RunErr (ε : Type) where
  | initFail
  | embedFail (e : ε) (persisted : Option Files) (saves : List Files)
deriving DecidableEq

/-- `update_embeddings()` (lines 128-213): initialize from the persisted
files (`initFail` models the `ValueError` of `initialize_index` on an
empty metadata file), walk every ticker directory and every filing,
flush the remaining staged chunks, and — exactly when
`total_new_chunks` is not zero — save unconditionally.  An embedder
failure anywhere propagates as `embedFail` carrying the on-disk state
and the persistence trace at that moment. -/
def update_embeddings {ε : Type} (F : List (List Nat) → Except ε (List Vec))
    (nrm : Vec → Vec) (maxMem saveEvery : Nat) (corpus : Corpus)
    (pf : Option Files) : Except (RunErr ε) BuildSt :=
  match initialize_index pf with
  | none => Except.error RunErr.initFail
  | some init =>
    match runList (stepTicker F nrm init.existing_keys maxMem saveEvery)
        corpus
        ⟨init.index, init.metadata, [], [], init.next_id, 0, 0, pf, [], 0⟩ with
    | Except.error (e, p, s) => Except.error (RunErr.embedFail e p s)
    | Except.ok st =>
      match finalFlush F nrm st with
      | Except.error (e, p, s) => Except.error (RunErr.embedFail e p s)
      | Except.ok st2 =>
        if st2.total_new = 0 then Except.ok st2
        else Except.ok (doSave st2)

/-- Every ChunkKey the corpus walk will consider: one per chunk of each
record of each ticker directory. -/
def corpusKeys (corpus : Corpus) : List ChunkKey :=
  corpus.flatMap (fun td => td.2.flatMap (fun rec =>
    (chunksOf rec.text).enum.map (fun p => (td.1, rec.accession, p.1))))

/-- The metadata the persisted files hold (empty when absent). -/
def loadedMd : Option Files → List Entry
  | some f => f.2
  | none => []

/-- The index the persisted files hold (`none` when absent). -/
def loadedIdx : Option Files → Option FIndex
  | some f => some f.1
  | none => none

/-- The on-disk state after a trace of saves over initial files `pf`:
the last save, or `pf` if none happened. -/
def lastPersist (pf : Option Files) (saves : List Files) : Option Files :=
  match saves.getLast? with
  | some f => some f
  | none => pf

/-! ### Generic loop lemmas -/

theorem runList_cons_ok {ε α : Type} (f : BuildSt → α → BuildRes ε)
    (a : α) (t : List α) (st st1 : BuildSt) (h : f st a = Except.ok st1) :
    runList f (a :: t) st = runList f t st1 := by
  conv_lhs => rw [runList]
  simp only [h]

theorem runList_cons_err {ε α : Type} (f : BuildSt → α → BuildRes ε)
    (a : α) (t : List α) (st : BuildSt) (e : ε × Option Files × List Files)
    (h : f st a = Except.error e) :
    runList f (a :: t) st = Except.error e := by
  conv_lhs => rw [runList]
  simp only [h]

theorem runList_inv {ε α : Type} (f : BuildSt → α → BuildRes ε)
    (I : BuildSt → Prop)
    (hf : ∀ st a st', I st → f st a = Except.ok st' → I st') :
    ∀ (l : List α) (st st' : BuildSt),
      I st → runList f l st = Except.ok st' → I st' := by
  intro l
  induction l with
  | nil =>
    intro st st' hI h
    unfold runList at h
    injection h with h
    subst h
    exact hI
  | cons a t ih =>
    intro st st' hI h
    cases hf1 : f st a with
    | error e =>
      rw [runList_cons_err f a t st e hf1] at h
      cases h
    | ok st1 =>
      rw [runList_cons_ok f a t st st1 hf1] at h
      exact ih st1 st' (hf st a st1 hI hf1) h

theorem runList_err {ε α : Type} (f : BuildSt → α → BuildRes ε)
    (I : BuildSt → Prop) (E : ε × Option Files × List Files → Prop)
    (hok : ∀ st a st', I st → f st a = Except.ok st' → I st')
    (herr : ∀ st a e, I st → f st a = Except.error e → E e) :
    ∀ (l : List α) (st : BuildSt) (e : ε × Option Files × List Files),
      I st → runList f l st = Except.error e → E e := by
  intro l
  induction l with
  | nil =>
    intro st e hI h
    unfold runList at h
    cases h
  | cons a t ih =>
    intro st e hI h
    cases hf1 : f st a with
    | error e1 =>
      rw [runList_cons_err f a t st e1 hf1] at h
      injection h with h
      subst h
      exact herr st a e1 hI hf1
    | ok st1 =>
      rw [runList_cons_ok f a t st st1 hf1] at h
      exact ih st1 e (hok st a st1 hI hf1) h

theorem runList_const {ε α : Type} (f : BuildSt → α → BuildRes ε) :
    ∀ (l : List α), (∀ st a, a ∈ l → f st a = Except.ok st) →
      ∀ st, runList f l st = Except.ok st := by
  intro l
  induction l with
  | nil => intro _ st; rfl
  | cons a t ih =>
    intro hf st
    rw [runList_cons_ok f a t st st (hf st a (List.mem_cons_self a t))]
    exact ih (fun st2 b hb => hf st2 b (List.mem_cons_of_mem a hb)) st

theorem runList_forall {ε α : Type} (f : BuildSt → α → BuildRes ε)
    (P : α → BuildSt → Prop)
    (hstep : ∀ st a st', f st a = Except.ok st' → P a st')
    (hmono : ∀ a st b st', f st b = Except.ok st' → P a st → P a st') :
    ∀ (l : List α) (st st' : BuildSt),
      runList f l st = Except.ok st' → ∀ a ∈ l, P a st' := by
  intro l
  induction l with
  | nil =>
    intro st st' h a ha
    cases ha
  | cons b t ih =>
    intro st st' h a ha
    cases hf1 : f st b with
    | error e =>
      rw [runList_cons_err f b t st e hf1] at h
      cases h
    | ok st1 =>
      rw [runList_cons_ok f b t st st1 hf1] at h
      rcases List.mem_cons.mp ha with rfl | ha2
      · exact runList_inv f (P a)
          (fun st2 c st3 hP hc => hmono a st2 c st3 hc hP) t st1 st'
          (hstep st a st1 hf1) h
      · exact ih st1 st' h a ha2

/-! ### Shape lemmas for the builder's steps -/

theorem process_chunk_batch_ok {ε : Type}
    (F : List (List Nat) → Except ε (List Vec)) (nrm : Vec → Vec)
    (chunks : List (List Nat)) (entries : List Entry) (idx : Option FIndex)
    (md : List Entry) (r : Option FIndex × List Entry)
    (h : process_chunk_batch F nrm chunks entries idx md = Except.ok r) :
    (chunks = [] ∧ r = (idx, md)) ∨
    (chunks ≠ [] ∧
      ∃ embs, embedBatches F (blocks100 chunks) = Except.ok embs ∧
        r = (some ((idx.getD []) ++ (entries.map Entry.id).zip (embs.map nrm)),
          md ++ entries)) := by
  unfold process_chunk_batch at h
  by_cases hc : chunks.isEmpty
  · rw [if_pos hc] at h
    injection h with h
    exact Or.inl ⟨List.isEmpty_iff.mp hc, h.symm⟩
  · rw [if_neg hc] at h
    have hne : chunks ≠ [] := by
      intro hn
      subst hn
      exact hc rfl
    cases hemb : embedBatches F (blocks100 chunks) with
    | error e =>
      simp only [hemb] at h
      cases h
    | ok embs =>
      simp only [hemb] at h
      injection h with h
      exact Or.inr ⟨hne, embs, rfl, h.symm⟩

theorem process_chunk_batch_err {ε : Type}
    (F : List (List Nat) → Except ε (List Vec)) (nrm : Vec → Vec)
    (chunks : List (List Nat)) (entries : List Entry) (idx : Option FIndex)
    (md : List Entry) (e : ε)
    (h : process_chunk_batch F nrm chunks entries idx md = Except.error e) :
    chunks ≠ [] ∧ embedBatches F (blocks100 chunks) = Except.error e := by
  unfold process_chunk_batch at h
  by_cases hc : chunks.isEmpty
  · rw [if_pos hc] at h
    cases h
  · rw [if_neg hc] at h
    have hne : chunks ≠ [] := by
      intro hn
      subst hn
      exact hc rfl
    cases hemb : embedBatches F (blocks100 chunks) with
    | error e1 =>
      simp only [hemb] at h
      injection h with h
      subst h
      exact ⟨hne, rfl⟩
    | ok embs =>
      simp only [hemb] at h
      cases h

theorem flushBatch_ok {ε : Type} (F : List (List Nat) → Except ε (List Vec))
    (nrm : Vec → Vec) (st st' : BuildSt)
    (h : flushBatch F nrm st = Except.ok st') :
    ∃ r, process_chunk_batch F nrm st.current_chunks st.current_entries
        st.index st.metadata = Except.ok r ∧
      st' = { st with
        index := r.1,
        metadata := r.2,
        embedded := st.embedded + st.current_chunks.length } := by
  unfold flushBatch at h
  cases hp : process_chunk_batch F nrm st.current_chunks st.current_entries
      st.index st.metadata with
  | error e =>
    simp only [hp] at h
    cases h
  | ok r =>
    obtain ⟨i, m⟩ := r
    simp only [hp] at h
    injection h with h
    exact ⟨(i, m), rfl, h.symm⟩

theorem flushBatch_err {ε : Type} (F : List (List Nat) → Except ε (List Vec))
    (nrm : Vec → Vec) (st : BuildSt) (e : ε × Option Files × List Files)
    (h : flushBatch F nrm st = Except.error e) :
    ∃ e0, process_chunk_batch F nrm st.current_chunks st.current_entries
        st.index st.metadata = Except.error e0 ∧
      e = (e0, st.persisted, st.saves) := by
  unfold flushBatch at h
  cases hp : process_chunk_batch F nrm st.current_chunks st.current_entries
      st.index st.metadata with
  | error e0 =>
    simp only [hp] at h
    injection h with h
    exact ⟨e0, rfl, h.symm⟩
  | ok r =>
    obtain ⟨i, m⟩ := r
    simp only [hp] at h
    cases h

theorem stepChunk_ok {ε : Type} (F : List (List Nat) → Except ε (List Vec))
    (nrm : Vec → Vec) (keys : List ChunkKey) (mm se : Nat) (ticker : String)
    (rec : Record) (st : BuildSt) (p : Nat × List Nat) (st' : BuildSt)
    (h : stepChunk F nrm keys mm se ticker rec st p = Except.ok st') :
    ((ticker, rec.accession, p.1) ∈ keys ∧ st' = st) ∨
    ((ticker, rec.accession, p.1) ∉ keys ∧
      (st' = stageChunk ticker rec p st ∨
        ∃ st2, flushBatch F nrm (stageChunk ticker rec p st) = Except.ok st2 ∧
          (st' = afterFlushClear st2 ∨
            st' = { doSave (afterFlushClear st2) with processed := 0 }))) := by
  unfold stepChunk at h
  by_cases hmem : (ticker, rec.accession, p.1) ∈ keys
  · rw [if_pos hmem] at h
    injection h with h
    exact Or.inl ⟨hmem, h.symm⟩
  · rw [if_neg hmem] at h
    by_cases hmm : mm ≤ (stageChunk ticker rec p st).current_chunks.length
    · rw [if_pos hmm] at h
      cases hf : flushBatch F nrm (stageChunk ticker rec p st) with
      | error e =>
        simp only [hf] at h
        cases h
      | ok st2 =>
        simp only [hf] at h
        by_cases hse : se ≤ (afterFlushClear st2).processed
        · rw [if_pos hse] at h
          injection h with h
          exact Or.inr ⟨hmem, Or.inr ⟨st2, rfl, Or.inr h.symm⟩⟩
        · rw [if_neg hse] at h
          injection h with h
          exact Or.inr ⟨hmem, Or.inr ⟨st2, rfl, Or.inl h.symm⟩⟩
    · rw [if_neg hmm] at h
      injection h with h
      exact Or.inr ⟨hmem, Or.inl h.symm⟩

theorem stepChunk_err {ε : Type} (F : List (List Nat) → Except ε (List Vec))
    (nrm : Vec → Vec) (keys : List ChunkKey) (mm se : Nat) (ticker : String)
    (rec : Record) (st : BuildSt) (p : Nat × List Nat)
    (e : ε × Option Files × List Files)
    (h : stepChunk F nrm keys mm se ticker rec st p = Except.error e) :
    (ticker, rec.accession, p.1) ∉ keys ∧
    flushBatch F nrm (stageChunk ticker rec p st) = Except.error e := by
  unfold stepChunk at h
  by_cases hmem : (ticker, rec.accession, p.1) ∈ keys
  · rw [if_pos hmem] at h
    cases h
  · rw [if_neg hmem] at h
    by_cases hmm : mm ≤ (stageChunk ticker rec p st).current_chunks.length
    · rw [if_pos hmm] at h
      cases hf : flushBatch F nrm (stageChunk ticker rec p st) with
      | error e1 =>
        simp only [hf] at h
        injection h with h
        subst h
        exact ⟨hmem, rfl⟩
      | ok st2 =>
        simp only [hf] at h
        by_cases hse : se ≤ (afterFlushClear st2).processed
        · rw [if_pos hse] at h
          cases h
        · rw [if_neg hse] at h
          cases h
    · rw [if_neg hmm] at h
      cases h

theorem subBatches_join :
    ∀ (f : Nat) (l : List (List Nat)), l.length ≤ f →
      (subBatches f l).flatten = l := by
  intro f
  induction f with
  | zero =>
    intro l hl
    have h0 : l = [] := List.length_eq_zero.mp (Nat.le_zero.mp hl)
    subst h0
    rfl
  | succ g ih =>
    intro l hl
    cases l with
    | nil => rfl
    | cons c t =>
      show (c :: t).take 100 ++ (subBatches g ((c :: t).drop 100)).flatten = c :: t
      rw [ih ((c :: t).drop 100) (by rw [List.length_drop]; simp at hl ⊢; omega)]
      exact List.take_append_drop 100 (c :: t)

theorem blocks100_sum (l : List (List Nat)) :
    ((blocks100 l).map List.length).sum = l.length := by
  have h := subBatches_join l.length l (le_refl _)
  calc ((blocks100 l).map List.length).sum
      = (blocks100 l).flatten.length := (List.length_flatten _).symm
    _ = l.length := by unfold blocks100; rw [h]

theorem embedBatches_ok_length {ε : Type}
    (F : List (List Nat) → Except ε (List Vec))
    (hF : ∀ b vs, F b = Except.ok vs → vs.length = b.length) :
    ∀ (bs : List (List (List Nat))) (vs : List Vec),
      embedBatches F bs = Except.ok vs →
      vs.length = (bs.map List.length).sum := by
  intro bs
  induction bs with
  | nil =>
    intro vs h
    injection h with h
    subst h
    rfl
  | cons b t ih =>
    intro vs h
    unfold embedBatches at h
    split at h
    · cases h
    · rename_i vs1 hFb
      split at h
      · cases h
      · rename_i rest hrec
        injection h with h
        subst h
        rw [List.length_append, hF b vs1 hFb, ih rest hrec]
        simp

/-- The ids stored in the (possibly not yet created) vector index. -/
def idsOfIdx (i : Option FIndex) : List Nat := (i.getD []).map Prod.fst

/-- The one-to-one linkage of claim C3 for an in-memory pair. -/
def Consistent (st : BuildSt) : Prop :=
  idsOfIdx st.index = st.metadata.map Entry.id

/-- The one-to-one linkage for a persisted pair of files. -/
def FilesConsistent : Option Files → Prop
  | some f => f.1.map Prod.fst = f.2.map Entry.id
  | none => True

theorem process_chunk_batch_ids {ε : Type}
    (F : List (List Nat) → Except ε (List Vec)) (nrm : Vec → Vec)
    (chunks : List (List Nat)) (entries : List Entry) (idx : Option FIndex)
    (md : List Entry) (r : Option FIndex × List Entry)
    (hF : ∀ b vs, F b = Except.ok vs → vs.length = b.length)
    (hlen : chunks.length = entries.length)
    (h : process_chunk_batch F nrm chunks entries idx md = Except.ok r) :
    idsOfIdx r.1 = idsOfIdx idx ++ entries.map Entry.id ∧
    r.2 = md ++ entries := by
  rcases process_chunk_batch_ok F nrm chunks entries idx md r h with
    ⟨hc, rfl⟩ | ⟨hc, embs, hemb, rfl⟩
  · have hent : entries = [] := by
      rw [hc] at hlen
      exact List.length_eq_zero.mp hlen.symm
    subst hent
    simp
  · constructor
    · show ((some ((idx.getD []) ++
        (entries.map Entry.id).zip (embs.map nrm))).getD []).map Prod.fst = _
      rw [Option.getD_some, List.map_append]
      congr 1
      apply List.map_fst_zip
      rw [List.length_map, List.length_map,
        embedBatches_ok_length F hF _ _ hemb, blocks100_sum, hlen]
    · rfl

/-! ### The persistence-trace invariant (claim C8) -/

/-- The on-disk state is always exactly the last successful persist. -/
def PersistInv (pf : Option Files) (st : BuildSt) : Prop :=
  st.persisted = lastPersist pf st.saves

theorem persistInv_stage (pf : Option Files) (ticker : String) (rec : Record)
    (p : Nat × List Nat) (st : BuildSt) (h : PersistInv pf st) :
    PersistInv pf (stageChunk ticker rec p st) := h

theorem persistInv_doSave (pf : Option Files) (st : BuildSt)
    (h : PersistInv pf st) : PersistInv pf (doSave st) := by
  unfold PersistInv doSave lastPersist
  simp [List.getLast?_concat]

theorem persistInv_stepChunk {ε : Type}
    (F : List (List Nat) → Except ε (List Vec)) (nrm : Vec → Vec)
    (keys : List ChunkKey) (mm se : Nat) (ticker : String) (rec : Record)
    (pf : Option Files) :
    ∀ (st : BuildSt) (p : Nat × List Nat) (st' : BuildSt), PersistInv pf st →
      stepChunk F nrm keys mm se ticker rec st p = Except.ok st' →
      PersistInv pf st' := by
  intro st p st' hI h
  rcases stepChunk_ok F nrm keys mm se ticker rec st p st' h with
    ⟨_, rfl⟩ | ⟨_, rfl | ⟨st2, hf, rfl | rfl⟩⟩
  · exact hI
  · exact hI
  · obtain ⟨r, hp, rfl⟩ := flushBatch_ok F nrm _ _ hf
    exact hI
  · obtain ⟨r, hp, rfl⟩ := flushBatch_ok F nrm _ _ hf
    exact persistInv_doSave pf _ hI

theorem persistErr_stepChunk {ε : Type}
    (F : List (List Nat) → Except ε (List Vec)) (nrm : Vec → Vec)
    (keys : List ChunkKey) (mm se : Nat) (ticker : String) (rec : Record)
    (pf : Option Files) :
    ∀ (st : BuildSt) (p : Nat × List Nat) (e : ε × Option Files × List Files),
      PersistInv pf st →
      stepChunk F nrm keys mm se ticker rec st p = Except.error e →
      e.2.1 = lastPersist pf e.2.2 := by
  intro st p e hI h
  obtain ⟨_, hf⟩ := stepChunk_err F nrm keys mm se ticker rec st p e h
  obtain ⟨e0, _, rfl⟩ := flushBatch_err F nrm _ _ hf
  exact hI

theorem persistInv_stepRecord {ε : Type}
    (F : List (List Nat) → Except ε (List Vec)) (nrm : Vec → Vec)
    (keys : List ChunkKey) (mm se : Nat) (ticker : String)
    (pf : Option Files) :
    ∀ (st : BuildSt) (rec : Record) (st' : BuildSt), PersistInv pf st →
      stepRecord F nrm keys mm se ticker st rec = Except.ok st' →
      PersistInv pf st' := by
  intro st rec st' hI h
  exact runList_inv _ (PersistInv pf)
    (persistInv_stepChunk F nrm keys mm se ticker rec pf) _ st st' hI h

theorem persistErr_stepRecord {ε : Type}
    (F : List (List Nat) → Except ε (List Vec)) (nrm : Vec → Vec)
    (keys : List ChunkKey) (mm se : Nat) (ticker : String)
    (pf : Option Files) :
    ∀ (st : BuildSt) (rec : Record) (e : ε × Option Files × List Files),
      PersistInv pf st →
      stepRecord F nrm keys mm se ticker st rec = Except.error e →
      e.2.1 = lastPersist pf e.2.2 := by
  intro st rec e hI h
  exact runList_err _ (PersistInv pf) (fun e => e.2.1 = lastPersist pf e.2.2)
    (persistInv_stepChunk F nrm keys mm se ticker rec pf)
    (persistErr_stepChunk F nrm keys mm se ticker rec pf) _ st e hI h

theorem persistInv_stepTicker {ε : Type}
    (F : List (List Nat) → Except ε (List Vec)) (nrm : Vec → Vec)
    (keys : List ChunkKey) (mm se : Nat) (pf : Option Files) :
    ∀ (st : BuildSt) (td : String × List Record) (st' : BuildSt),
      PersistInv pf st →
      stepTicker F nrm keys mm se st td = Except.ok st' →
      PersistInv pf st' := by
  intro st td st' hI h
  exact runList_inv _ (PersistInv pf)
    (fun st2 rec st3 => persistInv_stepRecord F nrm keys mm se td.1 pf st2 rec st3)
    _ st st' hI h

theorem persistErr_stepTicker {ε : Type}
    (F : List (List Nat) → Except ε (List Vec)) (nrm : Vec → Vec)
    (keys : List ChunkKey) (mm se : Nat) (pf : Option Files) :
    ∀ (st : BuildSt) (td : String × List Record)
      (e : ε × Option Files × List Files),
      PersistInv pf st →
      stepTicker F nrm keys mm se st td = Except.error e →
      e.2.1 = lastPersist pf e.2.2 := by
  intro st td e hI h
  exact runList_err _ (PersistInv pf) (fun e => e.2.1 = lastPersist pf e.2.2)
    (fun st2 rec st3 => persistInv_stepRecord F nrm keys mm se td.1 pf st2 rec st3)
    (fun st2 rec e2 => persistErr_stepRecord F nrm keys mm se td.1 pf st2 rec e2)
    _ st e hI h

theorem finalFlush_ok {ε : Type} (F : List (List Nat) → Except ε (List Vec))
    (nrm : Vec → Vec) (st st' : BuildSt)
    (h : finalFlush F nrm st = Except.ok st') :
    (st.current_chunks = [] ∧ st' = st) ∨
    (st.current_chunks ≠ [] ∧
      ∃ st2, flushBatch F nrm st = Except.ok st2 ∧
        st' = { st2 with
          processed := st2.processed + st2.current_chunks.length }) := by
  unfold finalFlush at h
  by_cases hc : st.current_chunks.isEmpty
  · rw [if_pos hc] at h
    injection h with h
    exact Or.inl ⟨List.isEmpty_iff.mp hc, h.symm⟩
  · rw [if_neg hc] at h
    have hne : st.current_chunks ≠ [] := by
      intro hn
      rw [hn] at hc
      exact hc rfl
    cases hf : flushBatch F nrm st with
    | error e =>
      simp only [hf] at h
      cases h
    | ok st2 =>
      simp only [hf] at h
      injection h with h
      exact Or.inr ⟨hne, st2, rfl, h.symm⟩

theorem finalFlush_err {ε : Type} (F : List (List Nat) → Except ε (List Vec))
    (nrm : Vec → Vec) (st : BuildSt) (e : ε × Option Files × List Files)
    (h : finalFlush F nrm st = Except.error e) :
    st.current_chunks ≠ [] ∧ flushBatch F nrm st = Except.error e := by
  unfold finalFlush at h
  by_cases hc : st.current_chunks.isEmpty
  · rw [if_pos hc] at h
    cases h
  · rw [if_neg hc] at h
    have hne : st.current_chunks ≠ [] := by
      intro hn
      rw [hn] at hc
      exact hc rfl
    cases hf : flushBatch F nrm st with
    | error e1 =>
      simp only [hf] at h
      injection h with h
      subst h
      exact ⟨hne, rfl⟩
    | ok st2 =>
      simp only [hf] at h
      cases h

theorem update_embeddings_ok_shape {ε : Type}
    (F : List (List Nat) → Except ε (List Vec)) (nrm : Vec → Vec)
    (mm se : Nat) (corpus : Corpus) (pf : Option Files) (st' : BuildSt)
    (h : update_embeddings F nrm mm se corpus pf = Except.ok st') :
    ∃ init, initialize_index pf = some init ∧
      ∃ stw, runList (stepTicker F nrm init.existing_keys mm se) corpus
          ⟨init.index, init.metadata, [], [], init.next_id, 0, 0, pf, [], 0⟩ =
          Except.ok stw ∧
        ∃ st2, finalFlush F nrm stw = Except.ok st2 ∧
          ((st2.total_new = 0 ∧ st' = st2) ∨
            (st2.total_new ≠ 0 ∧ st' = doSave st2)) := by
  unfold update_embeddings at h
  cases hinit : initialize_index pf with
  | none =>
    simp only [hinit] at h
    cases h
  | some init =>
    simp only [hinit] at h
    refine ⟨init, rfl, ?_⟩
    cases hw : runList (stepTicker F nrm init.existing_keys mm se) corpus
        ⟨init.index, init.metadata, [], [], init.next_id, 0, 0, pf, [], 0⟩ with
    | error ep =>
      obtain ⟨e1, p1, s1⟩ := ep
      simp only [hw] at h
      cases h
    | ok stw =>
      simp only [hw] at h
      refine ⟨stw, rfl, ?_⟩
      cases hff : finalFlush F nrm stw with
      | error ep =>
        obtain ⟨e1, p1, s1⟩ := ep
        simp only [hff] at h
        cases h
      | ok st2 =>
        simp only [hff] at h
        refine ⟨st2, rfl, ?_⟩
        by_cases hz : st2.total_new = 0
        · rw [if_pos hz] at h
          injection h with h
          exact Or.inl ⟨hz, h.symm⟩
        · rw [if_neg hz] at h
          injection h with h
          exact Or.inr ⟨hz, h.symm⟩

theorem update_embeddings_err_shape {ε : Type}
    (F : List (List Nat) → Except ε (List Vec)) (nrm : Vec → Vec)
    (mm se : Nat) (corpus : Corpus) (pf : Option Files) (e : ε)
    (p : Option Files) (s : List Files)
    (h : update_embeddings F nrm mm se corpus pf =
      Except.error (RunErr.embedFail e p s)) :
    ∃ init, initialize_index pf = some init ∧
      (runList (stepTicker F nrm init.existing_keys mm se) corpus
          ⟨init.index, init.metadata, [], [], init.next_id, 0, 0, pf, [], 0⟩ =
          Except.error (e, p, s) ∨
        ∃ stw, runList (stepTicker F nrm init.existing_keys mm se) corpus
            ⟨init.index, init.metadata, [], [], init.next_id, 0, 0, pf, [], 0⟩ =
            Except.ok stw ∧
          finalFlush F nrm stw = Except.error (e, p, s)) := by
  unfold update_embeddings at h
  cases hinit : initialize_index pf with
  | none =>
    simp only [hinit] at h
    injection h with h
    cases h
  | some init =>
    simp only [hinit] at h
    refine ⟨init, rfl, ?_⟩
    cases hw : runList (stepTicker F nrm init.existing_keys mm se) corpus
        ⟨init.index, init.metadata, [], [], init.next_id, 0, 0, pf, [], 0⟩ with
    | error ep =>
      obtain ⟨e1, p1, s1⟩ := ep
      simp only [hw] at h
      injection h with h
      injection h with he hp hs
      subst he
      subst hp
      subst hs
      exact Or.inl rfl
    | ok stw =>
      simp only [hw] at h
      cases hff : finalFlush F nrm stw with
      | error ep =>
        obtain ⟨e1, p1, s1⟩ := ep
        simp only [hff] at h
        injection h with h
        injection h with he hp hs
        subst he
        subst hp
        subst hs
        exact Or.inr ⟨stw, rfl, hff⟩
      | ok st2 =>
        simp only [hff] at h
        by_cases hz : st2.total_new = 0
        · rw [if_pos hz] at h
          cases h
        · rw [if_neg hz] at h
          cases h

/-! ### Coverage, staging and dedup invariants (claims C2, C8) -/

/-- Every ChunkKey the in-memory run has accounted for so far: the keys
of the metadata log plus the keys of the staged entries. -/
def kAll (st : BuildSt) : List ChunkKey :=
  keysOf st.metadata ++ keysOf st.current_entries

theorem keyOf_staged (ticker : String) (rec : Record) (p : Nat × List Nat)
    (st : BuildSt) :
    keyOf (⟨st.next_id, ticker, rec.accession, p.1, rec.filing_date,
      rec.form⟩ : Entry) = (ticker, rec.accession, p.1) := rfl

theorem stageChunk_nonempty (ticker : String) (rec : Record)
    (p : Nat × List Nat) (st : BuildSt) :
    (stageChunk ticker rec p st).current_chunks ≠ [] := by
  unfold stageChunk
  simp

theorem flushed_metadata {ε : Type}
    (F : List (List Nat) → Except ε (List Vec)) (nrm : Vec → Vec)
    (st1 st2 : BuildSt) (hne : st1.current_chunks ≠ [])
    (hf : flushBatch F nrm st1 = Except.ok st2) :
    st2.metadata = st1.metadata ++ st1.current_entries ∧
    st2.current_entries = st1.current_entries ∧
    st2.current_chunks = st1.current_chunks ∧
    st2.persisted = st1.persisted ∧ st2.saves = st1.saves ∧
    st2.total_new = st1.total_new := by
  obtain ⟨r, hp, rfl⟩ := flushBatch_ok F nrm _ _ hf
  rcases process_chunk_batch_ok F nrm _ _ _ _ r hp with ⟨hc, rfl⟩ | ⟨_, _, _, rfl⟩
  · exact absurd hc hne
  · exact ⟨rfl, rfl, rfl, rfl, rfl, rfl⟩

theorem mem_kAll_stage (ticker : String) (rec : Record) (p : Nat × List Nat)
    (st : BuildSt) (k : ChunkKey) :
    k ∈ kAll (stageChunk ticker rec p st) ↔
      (k ∈ kAll st ∨ k = (ticker, rec.accession, p.1)) := by
  unfold kAll keysOf stageChunk
  simp only [List.map_append, List.mem_append, List.map_cons, List.map_nil,
    List.mem_cons, List.mem_nil_iff, or_false, keyOf]
  tauto

theorem mem_kAll_clear_flush (st1 st2 : BuildSt)
    (hmd : st2.metadata = st1.metadata ++ st1.current_entries) (k : ChunkKey) :
    k ∈ kAll (afterFlushClear st2) ↔ k ∈ kAll st1 := by
  unfold kAll keysOf afterFlushClear
  simp only [hmd, List.map_append, List.mem_append, List.map_nil,
    List.mem_nil_iff, or_false]

theorem kAll_mono_stepChunk {ε : Type}
    (F : List (List Nat) → Except ε (List Vec)) (nrm : Vec → Vec)
    (keys : List ChunkKey) (mm se : Nat) (ticker : String) (rec : Record) :
    ∀ (st : BuildSt) (p : Nat × List Nat) (st' : BuildSt),
      stepChunk F nrm keys mm se ticker rec st p = Except.ok st' →
      ∀ k, k ∈ kAll st → k ∈ kAll st' := by
  intro st p st' h k hk
  rcases stepChunk_ok F nrm keys mm se ticker rec st p st' h with
    ⟨_, rfl⟩ | ⟨_, rfl | ⟨st2, hf, rfl | rfl⟩⟩
  · exact hk
  · exact (mem_kAll_stage ticker rec p st k).mpr (Or.inl hk)
  · obtain ⟨hmd, _, _, _, _, _⟩ :=
      flushed_metadata F nrm _ st2 (stageChunk_nonempty ticker rec p st) hf
    exact (mem_kAll_clear_flush _ st2 hmd k).mpr
      ((mem_kAll_stage ticker rec p st k).mpr (Or.inl hk))
  · obtain ⟨hmd, _, _, _, _, _⟩ :=
      flushed_metadata F nrm _ st2 (stageChunk_nonempty ticker rec p st) hf
    show k ∈ kAll (afterFlushClear st2)
    exact (mem_kAll_clear_flush _ st2 hmd k).mpr
      ((mem_kAll_stage ticker rec p st k).mpr (Or.inl hk))

theorem kAll_mono_stepRecord {ε : Type}
    (F : List (List Nat) → Except ε (List Vec)) (nrm : Vec → Vec)
    (keys : List ChunkKey) (mm se : Nat) (ticker : String) :
    ∀ (st : BuildSt) (rec : Record) (st' : BuildSt),
      stepRecord F nrm keys mm se ticker st rec = Except.ok st' →
      ∀ k, k ∈ kAll st → k ∈ kAll st' := by
  intro st rec st' h k hk
  exact runList_inv _ (fun s => k ∈ kAll s)
    (fun st2 p st3 hI h2 =>
      kAll_mono_stepChunk F nrm keys mm se ticker rec st2 p st3 h2 k hI)
    _ st st' hk h

theorem kAll_mono_stepTicker {ε : Type}
    (F : List (List Nat) → Except ε (List Vec)) (nrm : Vec → Vec)
    (keys : List ChunkKey) (mm se : Nat) :
    ∀ (st : BuildSt) (td : String × List Record) (st' : BuildSt),
      stepTicker F nrm keys mm se st td = Except.ok st' →
      ∀ k, k ∈ kAll st → k ∈ kAll st' := by
  intro st td st' h k hk
  exact runList_inv _ (fun s => k ∈ kAll s)
    (fun st2 rec st3 hI h2 =>
      kAll_mono_stepRecord F nrm keys mm se td.1 st2 rec st3 h2 k hI)
    _ st st' hk h

theorem covers_stepChunk {ε : Type}
    (F : List (List Nat) → Except ε (List Vec)) (nrm : Vec → Vec)
    (keys : List ChunkKey) (mm se : Nat) (ticker : String) (rec : Record) :
    ∀ (st : BuildSt) (p : Nat × List Nat) (st' : BuildSt),
      stepChunk F nrm keys mm se ticker rec st p = Except.ok st' →
      (ticker, rec.accession, p.1) ∈ kAll st' ∨
        (ticker, rec.accession, p.1) ∈ keys := by
  intro st p st' h
  rcases stepChunk_ok F nrm keys mm se ticker rec st p st' h with
    ⟨hmem, rfl⟩ | ⟨hmem, rfl | ⟨st2, hf, rfl | rfl⟩⟩
  · exact Or.inr hmem
  · exact Or.inl ((mem_kAll_stage ticker rec p st _).mpr (Or.inr rfl))
  · obtain ⟨hmd, _, _, _, _, _⟩ :=
      flushed_metadata F nrm _ st2 (stageChunk_nonempty ticker rec p st) hf
    exact Or.inl ((mem_kAll_clear_flush _ st2 hmd _).mpr
      ((mem_kAll_stage ticker rec p st _).mpr (Or.inr rfl)))
  · obtain ⟨hmd, _, _, _, _, _⟩ :=
      flushed_metadata F nrm _ st2 (stageChunk_nonempty ticker rec p st) hf
    left
    show (ticker, rec.accession, p.1) ∈ kAll (afterFlushClear st2)
    exact (mem_kAll_clear_flush _ st2 hmd _).mpr
      ((mem_kAll_stage ticker rec p st _).mpr (Or.inr rfl))

theorem covers_stepRecord {ε : Type}
    (F : List (List Nat) → Except ε (List Vec)) (nrm : Vec → Vec)
    (keys : List ChunkKey) (mm se : Nat) (ticker : String) :
    ∀ (st : BuildSt) (rec : Record) (st' : BuildSt),
      stepRecord F nrm keys mm se ticker st rec = Except.ok st' →
      ∀ p ∈ (chunksOf rec.text).enum,
        (ticker, rec.accession, p.1) ∈ kAll st' ∨
          (ticker, rec.accession, p.1) ∈ keys := by
  intro st rec st' h
  exact runList_forall _
    (fun p s => (ticker, rec.accession, p.1) ∈ kAll s ∨
      (ticker, rec.accession, p.1) ∈ keys)
    (fun st2 p st3 h2 => covers_stepChunk F nrm keys mm se ticker rec st2 p st3 h2)
    (fun p st2 b st3 h2 hP => by
      exact hP.imp
        (fun hin => kAll_mono_stepChunk F nrm keys mm se ticker rec st2 b st3 h2 _ hin)
        id)
    _ st st' h

theorem covers_stepTicker {ε : Type}
    (F : List (List Nat) → Except ε (List Vec)) (nrm : Vec → Vec)
    (keys : List ChunkKey) (mm se : Nat) :
    ∀ (st : BuildSt) (td : String × List Record) (st' : BuildSt),
      stepTicker F nrm keys mm se st td = Except.ok st' →
      ∀ rec ∈ td.2, ∀ p ∈ (chunksOf rec.text).enum,
        (td.1, rec.accession, p.1) ∈ kAll st' ∨
          (td.1, rec.accession, p.1) ∈ keys := by
  intro st td st' h
  exact runList_forall _
    (fun rec s => ∀ p ∈ (chunksOf rec.text).enum,
      (td.1, rec.accession, p.1) ∈ kAll s ∨ (td.1, rec.accession, p.1) ∈ keys)
    (fun st2 rec st3 h2 => covers_stepRecord F nrm keys mm se td.1 st2 rec st3 h2)
    (fun rec st2 b st3 h2 hP p hp => by
      exact (hP p hp).imp
        (fun hin => kAll_mono_stepRecord F nrm keys mm se td.1 st2 b st3 h2 _ hin)
        id)
    _ st st' h

theorem walk_covers {ε : Type}
    (F : List (List Nat) → Except ε (List Vec)) (nrm : Vec → Vec)
    (keys : List ChunkKey) (mm se : Nat) :
    ∀ (corpus : Corpus) (st0 st' : BuildSt),
      runList (stepTicker F nrm keys mm se) corpus st0 = Except.ok st' →
      ∀ k ∈ corpusKeys corpus, k ∈ kAll st' ∨ k ∈ keys := by
  intro corpus st0 st' h k hk
  unfold corpusKeys at hk
  obtain ⟨td, htd, hk2⟩ := List.mem_flatMap.mp hk
  obtain ⟨rec, hrec, hk3⟩ := List.mem_flatMap.mp hk2
  obtain ⟨p, hp, hkeq⟩ := List.mem_map.mp hk3
  subst hkeq
  have hall := runList_forall _
    (fun td2 s => ∀ rec2 ∈ td2.2, ∀ p2 ∈ (chunksOf rec2.text).enum,
      (td2.1, rec2.accession, p2.1) ∈ kAll s ∨
        (td2.1, rec2.accession, p2.1) ∈ keys)
    (fun st2 td2 st3 h2 => covers_stepTicker F nrm keys mm se st2 td2 st3 h2)
    (fun td2 st2 b st3 h2 hP rec2 hrec2 p2 hp2 => by
      exact (hP rec2 hrec2 p2 hp2).imp
        (fun hin => kAll_mono_stepTicker F nrm keys mm se st2 b st3 h2 _ hin)
        id)
    corpus st0 st' h
  exact hall td htd rec hrec p hp

theorem total_mono_stepChunk {ε : Type}
    (F : List (List Nat) → Except ε (List Vec)) (nrm : Vec → Vec)
    (keys : List ChunkKey) (mm se : Nat) (ticker : String) (rec : Record) :
    ∀ (st : BuildSt) (p : Nat × List Nat) (st' : BuildSt),
      stepChunk F nrm keys mm se ticker rec st p = Except.ok st' →
      st.total_new ≤ st'.total_new := by
  intro st p st' h
  rcases stepChunk_ok F nrm keys mm se ticker rec st p st' h with
    ⟨_, rfl⟩ | ⟨_, rfl | ⟨st2, hf, rfl | rfl⟩⟩
  · exact le_refl _
  · exact Nat.le_succ _
  · obtain ⟨_, _, _, _, _, htot⟩ :=
      flushed_metadata F nrm _ st2 (stageChunk_nonempty ticker rec p st) hf
    have h2 : st2.total_new = st.total_new + 1 := htot
    show st.total_new ≤ st2.total_new
    omega
  · obtain ⟨_, _, _, _, _, htot⟩ :=
      flushed_metadata F nrm _ st2 (stageChunk_nonempty ticker rec p st) hf
    have h2 : st2.total_new = st.total_new + 1 := htot
    show st.total_new ≤ st2.total_new
    omega

theorem total_mono_stepRecord {ε : Type}
    (F : List (List Nat) → Except ε (List Vec)) (nrm : Vec → Vec)
    (keys : List ChunkKey) (mm se : Nat) (ticker : String) :
    ∀ (st : BuildSt) (rec : Record) (st' : BuildSt),
      stepRecord F nrm keys mm se ticker st rec = Except.ok st' →
      st.total_new ≤ st'.total_new := by
  intro st rec st' h
  exact runList_inv _ (fun s => st.total_new ≤ s.total_new)
    (fun st2 p st3 hI h2 =>
      le_trans hI (total_mono_stepChunk F nrm keys mm se ticker rec st2 p st3 h2))
    _ st st' (le_refl _) h

theorem total_mono_stepTicker {ε : Type}
    (F : List (List Nat) → Except ε (List Vec)) (nrm : Vec → Vec)
    (keys : List ChunkKey) (mm se : Nat) :
    ∀ (st : BuildSt) (td : String × List Record) (st' : BuildSt),
      stepTicker F nrm keys mm se st td = Except.ok st' →
      st.total_new ≤ st'.total_new := by
  intro st td st' h
  exact runList_inv _ (fun s => st.total_new ≤ s.total_new)
    (fun st2 rec st3 hI h2 =>
      le_trans hI (total_mono_stepRecord F nrm keys mm se td.1 st2 rec st3 h2))
    _ st st' (le_refl _) h

theorem staged_stepChunk_total {ε : Type}
    (F : List (List Nat) → Except ε (List Vec)) (nrm : Vec → Vec)
    (keys : List ChunkKey) (mm se : Nat) (ticker : String) (rec : Record) :
    ∀ (st : BuildSt) (p : Nat × List Nat) (st' : BuildSt),
      stepChunk F nrm keys mm se ticker rec st p = Except.ok st' →
      (ticker, rec.accession, p.1) ∈ keys ∨ 1 ≤ st'.total_new := by
  intro st p st' h
  rcases stepChunk_ok F nrm keys mm se ticker rec st p st' h with
    ⟨hmem, rfl⟩ | ⟨hmem, rfl | ⟨st2, hf, rfl | rfl⟩⟩
  · exact Or.inl hmem
  · right
    show 1 ≤ st.total_new + 1
    omega
  · obtain ⟨_, _, _, _, _, htot⟩ :=
      flushed_metadata F nrm _ st2 (stageChunk_nonempty ticker rec p st) hf
    have h2 : st2.total_new = st.total_new + 1 := htot
    right
    show 1 ≤ st2.total_new
    omega
  · obtain ⟨_, _, _, _, _, htot⟩ :=
      flushed_metadata F nrm _ st2 (stageChunk_nonempty ticker rec p st) hf
    have h2 : st2.total_new = st.total_new + 1 := htot
    right
    show 1 ≤ st2.total_new
    omega

theorem walk_total_zero {ε : Type}
    (F : List (List Nat) → Except ε (List Vec)) (nrm : Vec → Vec)
    (keys : List ChunkKey) (mm se : Nat) :
    ∀ (corpus : Corpus) (st0 st' : BuildSt),
      runList (stepTicker F nrm keys mm se) corpus st0 = Except.ok st' →
      st'.total_new = 0 →
      ∀ k ∈ corpusKeys corpus, k ∈ keys := by
  intro corpus st0 st' h hz k hk
  unfold corpusKeys at hk
  obtain ⟨td, htd, hk2⟩ := List.mem_flatMap.mp hk
  obtain ⟨rec, hrec, hk3⟩ := List.mem_flatMap.mp hk2
  obtain ⟨p, hp, hkeq⟩ := List.mem_map.mp hk3
  subst hkeq
  have hstepT : ∀ (st2 : BuildSt) (td2 : String × List Record) (st3 : BuildSt),
      stepTicker F nrm keys mm se st2 td2 = Except.ok st3 →
      ∀ rec2 ∈ td2.2, ∀ p2 ∈ (chunksOf rec2.text).enum,
        (td2.1, rec2.accession, p2.1) ∈ keys ∨ 1 ≤ st3.total_new := by
    intro st2 td2 st3 h2
    exact runList_forall _
      (fun rec2 s => ∀ p2 ∈ (chunksOf rec2.text).enum,
        (td2.1, rec2.accession, p2.1) ∈ keys ∨ 1 ≤ s.total_new)
      (fun st4 rec2 st5 h3 p2 hp2 => by
        have := runList_forall _
          (fun p3 s => (td2.1, rec2.accession, p3.1) ∈ keys ∨ 1 ≤ s.total_new)
          (fun st6 p3 st7 h4 =>
            staged_stepChunk_total F nrm keys mm se td2.1 rec2 st6 p3 st7 h4)
          (fun p3 st6 b st7 h4 hP => by
            exact hP.imp id (fun hin => le_trans hin
              (total_mono_stepChunk F nrm keys mm se td2.1 rec2 st6 b st7 h4)))
          _ st4 st5 h3
        exact this p2 hp2)
      (fun rec2 st4 b st5 h3 hP p2 hp2 => by
        exact (hP p2 hp2).imp id (fun hin =>
          le_trans hin (total_mono_stepRecord F nrm keys mm se td2.1 st4 b st5 h3)))
      _ st2 st3 h2
  have hall := runList_forall _
    (fun td2 s => ∀ rec2 ∈ td2.2, ∀ p2 ∈ (chunksOf rec2.text).enum,
      (td2.1, rec2.accession, p2.1) ∈ keys ∨ 1 ≤ s.total_new)
    hstepT
    (fun td2 st2 b st3 h2 hP rec2 hrec2 p2 hp2 => by
      exact (hP rec2 hrec2 p2 hp2).imp id
        (fun hin => le_trans hin (total_mono_stepTicker F nrm keys mm se st2 b st3 h2)))
    corpus st0 st' h
  rcases hall td htd rec hrec p hp with hin | hpos
  · exact hin
  · omega

/-- Dedup bookkeeping: everything beyond the loaded metadata prefix, and
everything staged, has a key the dedup check has never seen in
`existing_keys`. -/
def NewInv (md0 : List Entry) (keys : List ChunkKey) (st : BuildSt) : Prop :=
  (∃ newE, st.metadata = md0 ++ newE ∧ ∀ e ∈ newE, keyOf e ∉ keys) ∧
  (∀ e ∈ st.current_entries, keyOf e ∉ keys)

theorem newInv_stepChunk {ε : Type}
    (F : List (List Nat) → Except ε (List Vec)) (nrm : Vec → Vec)
    (keys : List ChunkKey) (mm se : Nat) (ticker : String) (rec : Record)
    (md0 : List Entry) :
    ∀ (st : BuildSt) (p : Nat × List Nat) (st' : BuildSt),
      NewInv md0 keys st →
      stepChunk F nrm keys mm se ticker rec st p = Except.ok st' →
      NewInv md0 keys st' := by
  intro st p st' hI h
  obtain ⟨⟨newE, hmd, hnew⟩, hcur⟩ := hI
  have hstagecur : ∀ (hmem : (ticker, rec.accession, p.1) ∉ keys)
      (e : Entry), e ∈ (stageChunk ticker rec p st).current_entries →
      keyOf e ∉ keys := by
    intro hmem e he
    have he2 : e ∈ st.current_entries ++
        [⟨st.next_id, ticker, rec.accession, p.1, rec.filing_date,
          rec.form⟩] := he
    rcases List.mem_append.mp he2 with h1 | h2
    · exact hcur e h1
    · rw [List.mem_singleton] at h2
      subst h2
      exact hmem
  rcases stepChunk_ok F nrm keys mm se ticker rec st p st' h with
    ⟨hmem, rfl⟩ | ⟨hmem, rfl | ⟨st2, hf, rfl | rfl⟩⟩
  · exact ⟨⟨newE, hmd, hnew⟩, hcur⟩
  · exact ⟨⟨newE, hmd, hnew⟩, hstagecur hmem⟩
  · obtain ⟨hmd2, _, _, _, _, _⟩ :=
      flushed_metadata F nrm _ st2 (stageChunk_nonempty ticker rec p st) hf
    constructor
    · refine ⟨newE ++ (stageChunk ticker rec p st).current_entries, ?_, ?_⟩
      · show st2.metadata = md0 ++ _
        rw [hmd2]
        show st.metadata ++ _ = _
        rw [hmd, List.append_assoc]
      · intro e he
        rcases List.mem_append.mp he with h1 | h2
        · exact hnew e h1
        · exact hstagecur hmem e h2
    · intro e he
      cases he
  · obtain ⟨hmd2, _, _, _, _, _⟩ :=
      flushed_metadata F nrm _ st2 (stageChunk_nonempty ticker rec p st) hf
    constructor
    · refine ⟨newE ++ (stageChunk ticker rec p st).current_entries, ?_, ?_⟩
      · show st2.metadata = md0 ++ _
        rw [hmd2]
        show st.metadata ++ _ = _
        rw [hmd, List.append_assoc]
      · intro e he
        rcases List.mem_append.mp he with h1 | h2
        · exact hnew e h1
        · exact hstagecur hmem e h2
    · intro e he
      cases he

theorem newInv_walk {ε : Type}
    (F : List (List Nat) → Except ε (List Vec)) (nrm : Vec → Vec)
    (keys : List ChunkKey) (mm se : Nat) (md0 : List Entry) :
    ∀ (corpus : Corpus) (st0 st' : BuildSt), NewInv md0 keys st0 →
      runList (stepTicker F nrm keys mm se) corpus st0 = Except.ok st' →
      NewInv md0 keys st' := by
  intro corpus st0 st' hI h
  exact runList_inv _ (NewInv md0 keys)
    (fun st2 td st3 hI2 h2 => runList_inv _ (NewInv md0 keys)
      (fun st4 rec st5 hI3 h3 => runList_inv _ (NewInv md0 keys)
        (fun st6 p st7 hI4 h4 =>
          newInv_stepChunk F nrm keys mm se td.1 rec md0 st6 p st7 hI4 h4)
        _ st4 st5 hI3 h3)
      _ st2 st3 hI2 h2)
    _ st0 st' hI h

/-- Length accounting during the walk: every staged chunk is counted by
`total_new_chunks`, and flushed entries land in the metadata log. -/
def LenInv (md0 : List Entry) (st : BuildSt) : Prop :=
  st.metadata.length + st.current_entries.length =
    md0.length + st.total_new ∧
  st.current_chunks.length = st.current_entries.length

theorem lenInv_stepChunk {ε : Type}
    (F : List (List Nat) → Except ε (List Vec)) (nrm : Vec → Vec)
    (keys : List ChunkKey) (mm se : Nat) (ticker : String) (rec : Record)
    (md0 : List Entry) :
    ∀ (st : BuildSt) (p : Nat × List Nat) (st' : BuildSt),
      LenInv md0 st →
      stepChunk F nrm keys mm se ticker rec st p = Except.ok st' →
      LenInv md0 st' := by
  intro st p st' hI h
  obtain ⟨hlen, hals⟩ := hI
  have hstage : LenInv md0 (stageChunk ticker rec p st) := by
    constructor
    · show st.metadata.length + (st.current_entries ++ [_]).length =
        md0.length + (st.total_new + 1)
      rw [List.length_append]
      simp only [List.length_singleton]
      omega
    · show (st.current_chunks ++ [_]).length =
        (st.current_entries ++ [_]).length
      rw [List.length_append, List.length_append, hals]
      rfl
  rcases stepChunk_ok F nrm keys mm se ticker rec st p st' h with
    ⟨_, rfl⟩ | ⟨_, rfl | ⟨st2, hf, rfl | rfl⟩⟩
  · exact ⟨hlen, hals⟩
  · exact hstage
  · obtain ⟨hmd2, hce2, _, _, _, htot⟩ :=
      flushed_metadata F nrm _ st2 (stageChunk_nonempty ticker rec p st) hf
    obtain ⟨hl1, _⟩ := hstage
    constructor
    · show st2.metadata.length + 0 = md0.length + st2.total_new
      rw [hmd2, htot, List.length_append]
      omega
    · rfl
  · obtain ⟨hmd2, hce2, _, _, _, htot⟩ :=
      flushed_metadata F nrm _ st2 (stageChunk_nonempty ticker rec p st) hf
    obtain ⟨hl1, _⟩ := hstage
    constructor
    · show st2.metadata.length + 0 = md0.length + st2.total_new
      rw [hmd2, htot, List.length_append]
      omega
    · rfl

theorem lenInv_walk {ε : Type}
    (F : List (List Nat) → Except ε (List Vec)) (nrm : Vec → Vec)
    (keys : List ChunkKey) (mm se : Nat) (md0 : List Entry) :
    ∀ (corpus : Corpus) (st0 st' : BuildSt), LenInv md0 st0 →
      runList (stepTicker F nrm keys mm se) corpus st0 = Except.ok st' →
      LenInv md0 st' := by
  intro corpus st0 st' hI h
  exact runList_inv _ (LenInv md0)
    (fun st2 td st3 hI2 h2 => runList_inv _ (LenInv md0)
      (fun st4 rec st5 hI3 h3 => runList_inv _ (LenInv md0)
        (fun st6 p st7 hI4 h4 =>
          lenInv_stepChunk F nrm keys mm se td.1 rec md0 st6 p st7 hI4 h4)
        _ st4 st5 hI3 h3)
      _ st2 st3 hI2 h2)
    _ st0 st' hI h

/-- Every checkpointed metadata file is nonempty (a save happens only
right after at least one chunk was flushed into the log). -/
def SavesNonempty (st : BuildSt) : Prop := ∀ f ∈ st.saves, f.2 ≠ []

theorem savesNonempty_stepChunk {ε : Type}
    (F : List (List Nat) → Except ε (List Vec)) (nrm : Vec → Vec)
    (keys : List ChunkKey) (mm se : Nat) (ticker : String) (rec : Record) :
    ∀ (st : BuildSt) (p : Nat × List Nat) (st' : BuildSt),
      SavesNonempty st →
      stepChunk F nrm keys mm se ticker rec st p = Except.ok st' →
      SavesNonempty st' := by
  intro st p st' hI h
  rcases stepChunk_ok F nrm keys mm se ticker rec st p st' h with
    ⟨_, rfl⟩ | ⟨_, rfl | ⟨st2, hf, rfl | rfl⟩⟩
  · exact hI
  · exact hI
  · obtain ⟨_, _, _, _, hs, _⟩ :=
      flushed_metadata F nrm _ st2 (stageChunk_nonempty ticker rec p st) hf
    intro f hfmem
    have : f ∈ st2.saves := hfmem
    rw [hs] at this
    exact hI f this
  · obtain ⟨hmd2, _, _, _, hs, _⟩ :=
      flushed_metadata F nrm _ st2 (stageChunk_nonempty ticker rec p st) hf
    intro f hfmem
    have hfmem2 : f ∈ st2.saves ++
        [((afterFlushClear st2).index.getD [], (afterFlushClear st2).metadata)] :=
      hfmem
    rcases List.mem_append.mp hfmem2 with h1 | h2
    · rw [hs] at h1
      exact hI f h1
    · rw [List.mem_singleton] at h2
      subst h2
      show st2.metadata ≠ []
      rw [hmd2]
      intro hnil
      have hlen := congrArg List.length hnil
      rw [List.length_append] at hlen
      have hcur : (stageChunk ticker rec p st).current_entries =
          st.current_entries ++ [⟨st.next_id, ticker, rec.accession, p.1,
            rec.filing_date, rec.form⟩] := rfl
      rw [hcur, List.length_append] at hlen
      simp at hlen

theorem savesNonempty_walk {ε : Type}
    (F : List (List Nat) → Except ε (List Vec)) (nrm : Vec → Vec)
    (keys : List ChunkKey) (mm se : Nat) :
    ∀ (corpus : Corpus) (st0 st' : BuildSt), SavesNonempty st0 →
      runList (stepTicker F nrm keys mm se) corpus st0 = Except.ok st' →
      SavesNonempty st' := by
  intro corpus st0 st' hI h
  exact runList_inv _ SavesNonempty
    (fun st2 td st3 hI2 h2 => runList_inv _ SavesNonempty
      (fun st4 rec st5 hI3 h3 => runList_inv _ SavesNonempty
        (fun st6 p st7 hI4 h4 =>
          savesNonempty_stepChunk F nrm keys mm se td.1 rec st6 p st7 hI4 h4)
        _ st4 st5 hI3 h3)
      _ st2 st3 hI2 h2)
    _ st0 st' hI h

theorem persistInv_walk {ε : Type}
    (F : List (List Nat) → Except ε (List Vec)) (nrm : Vec → Vec)
    (keys : List ChunkKey) (mm se : Nat) (pf : Option Files) :
    ∀ (corpus : Corpus) (st0 st' : BuildSt), PersistInv pf st0 →
      runList (stepTicker F nrm keys mm se) corpus st0 = Except.ok st' →
      PersistInv pf st' := by
  intro corpus st0 st' hI h
  exact runList_inv _ (PersistInv pf)
    (fun st2 td st3 hI2 h2 =>
      persistInv_stepTicker F nrm keys mm se pf st2 td st3 hI2 h2)
    _ st0 st' hI h


theorem stepChunk_skip {ε : Type}
    (F : List (List Nat) → Except ε (List Vec)) (nrm : Vec → Vec)
    (keys : List ChunkKey) (mm se : Nat) (ticker : String) (rec : Record)
    (st : BuildSt) (p : Nat × List Nat)
    (hmem : (ticker, rec.accession, p.1) ∈ keys) :
    stepChunk F nrm keys mm se ticker rec st p = Except.ok st := by
  unfold stepChunk
  rw [if_pos hmem]

theorem walk_noop {ε : Type}
    (F : List (List Nat) → Except ε (List Vec)) (nrm : Vec → Vec)
    (keys : List ChunkKey) (mm se : Nat) (corpus : Corpus)
    (hall : ∀ k ∈ corpusKeys corpus, k ∈ keys) :
    ∀ st, runList (stepTicker F nrm keys mm se) corpus st = Except.ok st := by
  apply runList_const
  intro st td htd
  show runList (stepRecord F nrm keys mm se td.1) td.2 st = Except.ok st
  apply runList_const
  intro st2 rec hrec
  show runList (stepChunk F nrm keys mm se td.1 rec)
    (chunksOf rec.text).enum st2 = Except.ok st2
  apply runList_const
  intro st3 p hp
  apply stepChunk_skip
  apply hall
  unfold corpusKeys
  exact List.mem_flatMap.mpr ⟨td, htd,
    List.mem_flatMap.mpr ⟨rec, hrec, List.mem_map.mpr ⟨p, hp, rfl⟩⟩⟩

theorem maxIdOf_isSome (md : List Entry) (h : md ≠ []) :
    ∃ m, maxIdOf md = some m := by
  cases md with
  | nil => exact absurd rfl h
  | cons e t => exact ⟨_, rfl⟩

theorem initialize_index_some (i : FIndex) (md : List Entry) (h : md ≠ []) :
    ∃ init, initialize_index (some (i, md)) = some init := by
  obtain ⟨m, hm⟩ := maxIdOf_isSome md h
  refine ⟨⟨some i, md, keysOf md, m + 1⟩, ?_⟩
  unfold initialize_index
  simp only [hm]

theorem initialize_index_fields (pf : Option Files) (init : InitSt)
    (h : initialize_index pf = some init) :
    init.index = loadedIdx pf ∧ init.metadata = loadedMd pf ∧
    init.existing_keys = keysOf (loadedMd pf) := by
  cases pf with
  | none =>
    injection h with h
    subst h
    exact ⟨rfl, rfl, rfl⟩
  | some f =>
    obtain ⟨i, md⟩ := f
    unfold initialize_index at h
    cases hm : maxIdOf md with
    | none =>
      simp only [hm] at h
      cases h
    | some m =>
      simp only [hm] at h
      injection h with h
      subst h
      exact ⟨rfl, rfl, rfl⟩

theorem initialize_index_valid (pf : Option Files) (init : InitSt)
    (h : initialize_index pf = some init) :
    pf = none ∨ ∃ i md, pf = some (i, md) ∧ md ≠ [] := by
  cases pf with
  | none => exact Or.inl rfl
  | some f =>
    obtain ⟨i, md⟩ := f
    right
    refine ⟨i, md, rfl, ?_⟩
    intro hnil
    subst hnil
    unfold initialize_index at h
    cases h

theorem keysOf_append (l1 l2 : List Entry) :
    keysOf (l1 ++ l2) = keysOf l1 ++ keysOf l2 := List.map_append keyOf l1 l2

theorem update_ok_analysis {ε : Type}
    (F : List (List Nat) → Except ε (List Vec)) (nrm : Vec → Vec)
    (mm se : Nat) (corpus : Corpus) (pf : Option Files) (st' : BuildSt)
    (h : update_embeddings F nrm mm se corpus pf = Except.ok st') :
    (∀ k ∈ corpusKeys corpus, k ∈ keysOf st'.metadata) ∧
    (∃ newE, st'.metadata = loadedMd pf ++ newE ∧
      ∀ e ∈ newE, keyOf e ∉ keysOf (loadedMd pf)) ∧
    st'.metadata.length = (loadedMd pf).length + st'.total_new ∧
    st'.persisted = lastPersist pf st'.saves ∧
    (∀ f ∈ st'.saves, f.2 ≠ []) ∧
    (st'.total_new = 0 → st'.metadata = loadedMd pf ∧
      st'.index = loadedIdx pf ∧ st'.persisted = pf ∧ st'.saves = [] ∧
      st'.embedded = 0) ∧
    (st'.total_new ≠ 0 →
      st'.persisted = some (st'.index.getD [], st'.metadata)) := by
  obtain ⟨init, hinit, stw, hw, st2, hff, hbr⟩ :=
    update_embeddings_ok_shape F nrm mm se corpus pf st' h
  obtain ⟨hidx0, hmd0, hkeys0⟩ := initialize_index_fields pf init hinit
  have hLen0 : LenInv (loadedMd pf)
      ⟨init.index, init.metadata, [], [], init.next_id, 0, 0, pf, [], 0⟩ := by
    constructor
    · show init.metadata.length + 0 = (loadedMd pf).length + 0
      rw [hmd0]
    · rfl
  have hNew0 : NewInv (loadedMd pf) init.existing_keys
      ⟨init.index, init.metadata, [], [], init.next_id, 0, 0, pf, [], 0⟩ := by
    constructor
    · refine ⟨[], ?_, fun e he => absurd he (List.not_mem_nil e)⟩
      show init.metadata = loadedMd pf ++ []
      rw [hmd0, List.append_nil]
    · intro e he
      exact absurd he (List.not_mem_nil e)
  have hPer0 : PersistInv pf
      ⟨init.index, init.metadata, [], [], init.next_id, 0, 0, pf, [], 0⟩ := rfl
  have hSav0 : SavesNonempty
      ⟨init.index, init.metadata, [], [], init.next_id, 0, 0, pf, [], 0⟩ :=
    fun f hf => absurd hf (List.not_mem_nil f)
  have hLw : LenInv (loadedMd pf) stw :=
    lenInv_walk F nrm init.existing_keys mm se (loadedMd pf) corpus _ stw hLen0 hw
  have hNw : NewInv (loadedMd pf) init.existing_keys stw :=
    newInv_walk F nrm init.existing_keys mm se (loadedMd pf) corpus _ stw hNew0 hw
  have hPw : PersistInv pf stw :=
    persistInv_walk F nrm init.existing_keys mm se pf corpus _ stw hPer0 hw
  have hSw : SavesNonempty stw :=
    savesNonempty_walk F nrm init.existing_keys mm se corpus _ stw hSav0 hw
  have h2 : st2.metadata = stw.metadata ++ stw.current_entries ∧
      st2.total_new = stw.total_new ∧ st2.persisted = stw.persisted ∧
      st2.saves = stw.saves := by
    rcases finalFlush_ok F nrm stw st2 hff with ⟨hc, h2eq⟩ | ⟨hne, st3, hf, h2eq⟩
    · have hce : stw.current_entries = [] := by
        have h1 := hLw.2
        rw [hc] at h1
        exact List.length_eq_zero.mp h1.symm
      rw [h2eq, hce, List.append_nil]
      exact ⟨rfl, rfl, rfl, rfl⟩
    · obtain ⟨hm, hce, hcc, hp, hs, ht⟩ := flushed_metadata F nrm stw st3 hne hf
      rw [h2eq]
      exact ⟨hm, ht, hp, hs⟩
  obtain ⟨h2md, h2tot, h2per, h2sav⟩ := h2
  have hfin : st'.metadata = st2.metadata ∧ st'.total_new = st2.total_new ∧
      st'.index = st2.index ∧ st'.embedded = st2.embedded ∧
      ((st2.total_new = 0 ∧ st'.persisted = st2.persisted ∧
          st'.saves = st2.saves) ∨
        (st2.total_new ≠ 0 ∧
          st'.persisted = some (st2.index.getD [], st2.metadata) ∧
          st'.saves = st2.saves ++ [(st2.index.getD [], st2.metadata)])) := by
    rcases hbr with ⟨hz, hp⟩ | ⟨hnz, hp⟩
    · rw [hp]
      exact ⟨rfl, rfl, rfl, rfl, Or.inl ⟨hz, rfl, rfl⟩⟩
    · rw [hp]
      exact ⟨rfl, rfl, rfl, rfl, Or.inr ⟨hnz, rfl, rfl⟩⟩
  obtain ⟨hfmd, hftot, hfidx, hfemb, hfps⟩ := hfin
  obtain ⟨⟨newW, hnewW, hnewWk⟩, hcurW⟩ := hNw
  refine ⟨?_, ?_, ?_, ?_, ?_, ?_, ?_⟩
  · -- coverage
    intro k hk
    rw [hfmd, h2md, keysOf_append, List.mem_append]
    rcases walk_covers F nrm init.existing_keys mm se corpus _ stw hw k hk with
      hin | hin0
    · unfold kAll at hin
      exact List.mem_append.mp hin
    · left
      rw [hnewW, keysOf_append, List.mem_append]
      left
      rw [hkeys0] at hin0
      exact hin0
  · -- new entries beyond the loaded prefix
    rw [hfmd, h2md, hnewW, List.append_assoc]
    refine ⟨newW ++ stw.current_entries, rfl, ?_⟩
    intro e he
    rcases List.mem_append.mp he with h1 | h1
    · have h3 := hnewWk e h1
      rw [hkeys0] at h3
      exact h3
    · have h3 := hcurW e h1
      rw [hkeys0] at h3
      exact h3
  · -- length accounting
    rw [hfmd, hftot, h2md, h2tot, List.length_append]
    have h3 := hLw.1
    omega
  · -- on-disk state = last persist
    rcases hfps with ⟨_, hps, hss⟩ | ⟨_, hps, hss⟩
    · rw [hps, hss, h2per, h2sav]
      exact hPw
    · rw [hps, hss]
      unfold lastPersist
      rw [List.getLast?_concat]
  · -- every checkpointed metadata file nonempty
    intro f hf
    have hnonempty : st2.metadata ≠ [] → ∀ g ∈ st2.saves ++
        [(st2.index.getD [], st2.metadata)], (g : Files).2 ≠ [] := by
      intro hmdne g hg
      rcases List.mem_append.mp hg with h1 | h1
      · rw [h2sav] at h1
        exact hSw g h1
      · rw [List.mem_singleton] at h1
        subst h1
        exact hmdne
    rcases hfps with ⟨_, hps, hss⟩ | ⟨hnz, hps, hss⟩
    · rw [hss, h2sav] at hf
      exact hSw f hf
    · rw [hss] at hf
      refine hnonempty ?_ f hf
      intro hnil
      have hlen := congrArg List.length hnil
      rw [h2md, List.length_append] at hlen
      have hl1 := hLw.1
      have hnz2 : stw.total_new ≠ 0 := by
        rw [h2tot] at hnz
        exact hnz
      simp only [List.length_nil] at hlen
      omega
  · -- a run that staged nothing changed nothing
    intro hz
    rw [hftot, h2tot] at hz
    have hall : ∀ k ∈ corpusKeys corpus, k ∈ init.existing_keys :=
      walk_total_zero F nrm init.existing_keys mm se corpus _ stw hw hz
    have hnoop := walk_noop F nrm init.existing_keys mm se corpus hall
      ⟨init.index, init.metadata, [], [], init.next_id, 0, 0, pf, [], 0⟩
    rw [hnoop] at hw
    injection hw with hw
    have hcc : stw.current_chunks = [] := by rw [← hw]
    have hst2 : st2 = stw := by
      rcases finalFlush_ok F nrm stw st2 hff with ⟨_, h2eq⟩ | ⟨hne, _, _, _⟩
      · exact h2eq
      · exact absurd hcc hne
    have hper2 : st'.persisted = st2.persisted ∧ st'.saves = st2.saves := by
      rcases hfps with ⟨_, h3a, h3b⟩ | ⟨hnz, _, _⟩
      · exact ⟨h3a, h3b⟩
      · rw [h2tot] at hnz
        exact absurd hz hnz
    refine ⟨?_, ?_, ?_, ?_, ?_⟩
    · rw [hfmd, hst2, ← hw]
      show init.metadata = loadedMd pf
      exact hmd0
    · rw [hfidx, hst2, ← hw]
      show init.index = loadedIdx pf
      exact hidx0
    · rw [hper2.1, hst2, ← hw]
    · rw [hper2.2, hst2, ← hw]
    · rw [hfemb, hst2, ← hw]
  · -- a run that staged something persisted its final in-memory pair
    intro hnz
    rcases hfps with ⟨hz2, _, _⟩ | ⟨_, hps, _⟩
    · rw [hftot, hz2] at hnz
      exact absurd rfl hnz
    · rw [hps, hfidx, hfmd]

theorem update_embeddings_noop_run {ε2 : Type}
    (G : List (List Nat) → Except ε2 (List Vec)) (nrm2 : Vec → Vec)
    (mm2 se2 : Nat) (corpus : Corpus) (pfin : Option Files) (init2 : InitSt)
    (hinit2 : initialize_index pfin = some init2)
    (hall : ∀ k ∈ corpusKeys corpus, k ∈ init2.existing_keys) :
    update_embeddings G nrm2 mm2 se2 corpus pfin = Except.ok
      ⟨init2.index, init2.metadata, [], [], init2.next_id, 0, 0, pfin,
        [], 0⟩ := by
  unfold update_embeddings
  simp only [hinit2]
  have hnoop := walk_noop G nrm2 init2.existing_keys mm2 se2 corpus hall
    ⟨init2.index, init2.metadata, [], [], init2.next_id, 0, 0, pfin, [], 0⟩
  simp only [hnoop]
  have hffr : finalFlush G nrm2
      ⟨init2.index, init2.metadata, [], [], init2.next_id, 0, 0, pfin,
        [], 0⟩ =
      Except.ok ⟨init2.index, init2.metadata, [], [], init2.next_id, 0, 0,
        pfin, [], 0⟩ := rfl
  simp only [hffr]
  rfl

/-- C2: the builder is idempotent.  If one run of `update_embeddings`
over a corpus succeeds (from any starting files), then a second run
over the unchanged corpus, starting from the files the first run left
persisted, succeeds while embedding zero chunk texts, staging zero new
chunks, adding zero metadata entries and zero vectors (the loaded pair
is returned unchanged), and never saving — because every chunk key of
the corpus is already in the key set reconstructed from the persisted
metadata log and is skipped before any embedding happens.  The second
run's embedder and normalizer are arbitrary: they are never called. -/
theorem update_embeddings_idempotent {ε ε2 : Type}
    (F : List (List Nat) → Except ε (List Vec))
    (G : List (List Nat) → Except ε2 (List Vec)) (nrm nrm2 : Vec → Vec)
    (mm se mm2 se2 : Nat) (corpus : Corpus) (pf : Option Files)
    (st1 : BuildSt)
    (h1 : update_embeddings F nrm mm se corpus pf = Except.ok st1) :
    ∃ st2, update_embeddings G nrm2 mm2 se2 corpus st1.persisted =
        Except.ok st2 ∧
      st2.embedded = 0 ∧ st2.total_new = 0 ∧
      st2.metadata = loadedMd st1.persisted ∧
      st2.index = loadedIdx st1.persisted ∧
      st2.saves = [] ∧ st2.persisted = st1.persisted ∧
      (∀ k ∈ corpusKeys corpus, k ∈ keysOf (loadedMd st1.persisted)) := by
  obtain ⟨hcov, ⟨newE, hnew, hnewk⟩, hlen, hper, hsav, hzero, hnzper⟩ :=
    update_ok_analysis F nrm mm se corpus pf st1 h1
  obtain ⟨init, hinit, -⟩ := update_embeddings_ok_shape F nrm mm se corpus pf st1 h1
  have hcovP : ∀ k ∈ corpusKeys corpus, k ∈ keysOf (loadedMd st1.persisted) := by
    by_cases hz : st1.total_new = 0
    · obtain ⟨hmdz, _, hpz, _, _⟩ := hzero hz
      rw [hpz]
      intro k hk
      have h3 := hcov k hk
      rw [hmdz] at h3
      exact h3
    · have hp2 := hnzper hz
      rw [hp2]
      intro k hk
      exact hcov k hk
  have hinit2ex : ∃ init2, initialize_index st1.persisted = some init2 := by
    by_cases hz : st1.total_new = 0
    · obtain ⟨_, _, hpz, _, _⟩ := hzero hz
      rw [hpz]
      rcases initialize_index_valid pf init hinit with rfl | ⟨i, md, rfl, hmdne⟩
      · exact ⟨⟨none, [], [], 0⟩, rfl⟩
      · exact initialize_index_some i md hmdne
    · have hp2 := hnzper hz
      rw [hp2]
      apply initialize_index_some
      intro hnil
      rw [hnil] at hlen
      simp only [List.length_nil] at hlen
      omega
  obtain ⟨init2, hinit2⟩ := hinit2ex
  obtain ⟨hi2idx, hi2md, hi2keys⟩ := initialize_index_fields st1.persisted init2 hinit2
  have hall : ∀ k ∈ corpusKeys corpus, k ∈ init2.existing_keys := by
    intro k hk
    rw [hi2keys]
    exact hcovP k hk
  exact ⟨⟨init2.index, init2.metadata, [], [], init2.next_id, 0, 0,
      st1.persisted, [], 0⟩,
    update_embeddings_noop_run G nrm2 mm2 se2 corpus st1.persisted init2
      hinit2 hall,
    rfl, rfl, hi2md, hi2idx, rfl, rfl, hcovP⟩

instance {ε α : Type} [DecidableEq ε] [DecidableEq α] :
    DecidableEq (Except ε α) := fun a b =>
  match a, b with
  | Except.ok x, Except.ok y =>
    if h : x = y then Decidable.isTrue (by rw [h])
    else Decidable.isFalse (fun hc => by injection hc with hc; exact h hc)
  | Except.ok x, Except.error e =>
    Decidable.isFalse (fun hc => Except.noConfusion hc)
  | Except.error e, Except.ok x =>
    Decidable.isFalse (fun hc => Except.noConfusion hc)
  | Except.error e, Except.error f =>
    if h : e = f then Decidable.isTrue (by rw [h])
    else Decidable.isFalse (fun hc => by injection hc with hc; exact h hc)

/-- A one-filing corpus for the builder witnesses. -/
def cCorpus : Corpus := [("A", [⟨"X", "d", "10-K", "u", "c", [5, 6]⟩])]

/-- An embedder that answers every text with the vector `[1]`. -/
def cF : List (List Nat) → Except Unit (List Vec) :=
  fun ts => Except.ok (ts.map (fun _ => [1]))

/-- The state the first witness run ends in (computed by `decide`). -/
def cSt1 : BuildSt :=
  ⟨some [(0, [1])], [⟨0, "A", "X", 0, "d", "10-K"⟩], [[5, 6]],
    [⟨0, "A", "X", 0, "d", "10-K"⟩], 1, 1, 1,
    some ([(0, [1])], [⟨0, "A", "X", 0, "d", "10-K"⟩]),
    [([(0, [1])], [⟨0, "A", "X", 0, "d", "10-K"⟩])], 1⟩

/-- Witness for C2: a concrete first run over a one-filing corpus from
no persisted files, followed by the theorem's second run from what it
persisted. -/
theorem update_embeddings_idempotent_witness :
    ∃ st2, update_embeddings cF id 1000 500 cCorpus cSt1.persisted =
        Except.ok st2 ∧
      st2.embedded = 0 ∧ st2.total_new = 0 ∧
      st2.metadata = loadedMd cSt1.persisted ∧
      st2.index = loadedIdx cSt1.persisted ∧
      st2.saves = [] ∧ st2.persisted = cSt1.persisted ∧
      (∀ k ∈ corpusKeys cCorpus, k ∈ keysOf (loadedMd cSt1.persisted)) :=
  update_embeddings_idempotent cF cF id id 1000 500 1000 500 cCorpus none
    cSt1 (by decide)

/-! ### Index/metadata one-to-one invariant (claim C3) -/

/-- The embedding collaborator's batch contract (spec §6): one vector
per input text, same order — here only the length part is needed. -/
def LengthPres {ε : Type} (F : List (List Nat) → Except ε (List Vec)) : Prop :=
  ∀ b vs, F b = Except.ok vs → vs.length = b.length

/-- The full C3 state invariant: the in-memory pair agrees, the staging
buffers are aligned, and every persisted pair (each checkpoint and the
current files) agrees. -/
def ConsistInv (st : BuildSt) : Prop :=
  Consistent st ∧ st.current_chunks.length = st.current_entries.length ∧
  (∀ f ∈ st.saves, FilesConsistent (some f)) ∧ FilesConsistent st.persisted

theorem consistent_flush {ε : Type}
    (F : List (List Nat) → Except ε (List Vec)) (nrm : Vec → Vec)
    (hF : LengthPres F) (st1 st2 : BuildSt)
    (hlen : st1.current_chunks.length = st1.current_entries.length)
    (hcons : Consistent st1)
    (hf : flushBatch F nrm st1 = Except.ok st2) : Consistent st2 := by
  obtain ⟨r, hp, rfl⟩ := flushBatch_ok F nrm _ _ hf
  obtain ⟨hids, hmd⟩ := process_chunk_batch_ids F nrm _ _ _ _ r hF hlen hp
  show idsOfIdx r.1 = r.2.map Entry.id
  rw [hids, hmd, List.map_append, hcons]

theorem consistInv_doSave (st : BuildSt) (hI : ConsistInv st) :
    ConsistInv (doSave st) := by
  obtain ⟨hc, hl, hsv, hpc⟩ := hI
  refine ⟨hc, hl, ?_, ?_⟩
  · intro f hf
    have hf2 : f ∈ st.saves ++ [(st.index.getD [], st.metadata)] := hf
    rcases List.mem_append.mp hf2 with h1 | h1
    · exact hsv f h1
    · rw [List.mem_singleton] at h1
      subst h1
      show (st.index.getD []).map Prod.fst = st.metadata.map Entry.id
      exact hc
  · show ((st.index.getD [], st.metadata) : Files).1.map Prod.fst =
      ((st.index.getD [], st.metadata) : Files).2.map Entry.id
    exact hc

theorem consistInv_stepChunk {ε : Type}
    (F : List (List Nat) → Except ε (List Vec)) (nrm : Vec → Vec)
    (keys : List ChunkKey) (mm se : Nat) (ticker : String) (rec : Record)
    (hF : LengthPres F) :
    ∀ (st : BuildSt) (p : Nat × List Nat) (st' : BuildSt), ConsistInv st →
      stepChunk F nrm keys mm se ticker rec st p = Except.ok st' →
      ConsistInv st' := by
  intro st p st' hI h
  obtain ⟨hc, hl, hsv, hpc⟩ := hI
  have hstage : ConsistInv (stageChunk ticker rec p st) := by
    refine ⟨hc, ?_, hsv, hpc⟩
    show (st.current_chunks ++ [_]).length = (st.current_entries ++ [_]).length
    rw [List.length_append, List.length_append, hl]
    rfl
  rcases stepChunk_ok F nrm keys mm se ticker rec st p st' h with
    ⟨_, rfl⟩ | ⟨_, rfl | ⟨st2, hf, rfl | rfl⟩⟩
  · exact ⟨hc, hl, hsv, hpc⟩
  · exact hstage
  · obtain ⟨hcs, hls, hsvs, hpcs⟩ := hstage
    have hcons2 := consistent_flush F nrm hF _ st2 hls hcs hf
    obtain ⟨_, _, _, hp2, hs2, _⟩ :=
      flushed_metadata F nrm _ st2 (stageChunk_nonempty ticker rec p st) hf
    refine ⟨hcons2, rfl, ?_, ?_⟩
    · intro f hfm
      have : f ∈ st2.saves := hfm
      rw [hs2] at this
      exact hsvs f this
    · show FilesConsistent st2.persisted
      rw [hp2]
      exact hpcs
  · obtain ⟨hcs, hls, hsvs, hpcs⟩ := hstage
    have hcons2 := consistent_flush F nrm hF _ st2 hls hcs hf
    obtain ⟨_, _, _, hp2, hs2, _⟩ :=
      flushed_metadata F nrm _ st2 (stageChunk_nonempty ticker rec p st) hf
    have hI3 : ConsistInv (afterFlushClear st2) := by
      refine ⟨hcons2, rfl, ?_, ?_⟩
      · intro f hfm
        have : f ∈ st2.saves := hfm
        rw [hs2] at this
        exact hsvs f this
      · show FilesConsistent st2.persisted
        rw [hp2]
        exact hpcs
    have hI4 := consistInv_doSave (afterFlushClear st2) hI3
    exact ⟨hI4.1, hI4.2.1, hI4.2.2.1, hI4.2.2.2⟩

theorem consistInv_walk {ε : Type}
    (F : List (List Nat) → Except ε (List Vec)) (nrm : Vec → Vec)
    (keys : List ChunkKey) (mm se : Nat) (hF : LengthPres F) :
    ∀ (corpus : Corpus) (st0 st' : BuildSt), ConsistInv st0 →
      runList (stepTicker F nrm keys mm se) corpus st0 = Except.ok st' →
      ConsistInv st' := by
  intro corpus st0 st' hI h
  exact runList_inv _ ConsistInv
    (fun st2 td st3 hI2 h2 => runList_inv _ ConsistInv
      (fun st4 rec st5 hI3 h3 => runList_inv _ ConsistInv
        (fun st6 p st7 hI4 h4 =>
          consistInv_stepChunk F nrm keys mm se td.1 rec hF st6 p st7 hI4 h4)
        _ st4 st5 hI3 h3)
      _ st2 st3 hI2 h2)
    _ st0 st' hI h

theorem consistInv_update {ε : Type}
    (F : List (List Nat) → Except ε (List Vec)) (nrm : Vec → Vec)
    (mm se : Nat) (corpus : Corpus) (pf : Option Files) (st' : BuildSt)
    (hF : LengthPres F) (hpf : FilesConsistent pf)
    (h : update_embeddings F nrm mm se corpus pf = Except.ok st') :
    ConsistInv st' := by
  obtain ⟨init, hinit, stw, hw, st2, hff, hbr⟩ :=
    update_embeddings_ok_shape F nrm mm se corpus pf st' h
  obtain ⟨hidx0, hmd0, hkeys0⟩ := initialize_index_fields pf init hinit
  have hI0 : ConsistInv
      ⟨init.index, init.metadata, [], [], init.next_id, 0, 0, pf, [], 0⟩ := by
    refine ⟨?_, rfl, fun f hf => absurd hf (List.not_mem_nil f), hpf⟩
    show idsOfIdx init.index = init.metadata.map Entry.id
    rw [hidx0, hmd0]
    cases pf with
    | none => rfl
    | some f =>
      obtain ⟨i, md⟩ := f
      exact hpf
  have hIw := consistInv_walk F nrm init.existing_keys mm se hF corpus _ stw hI0 hw
  have hI2 : ConsistInv st2 := by
    rcases finalFlush_ok F nrm stw st2 hff with ⟨hc, h2eq⟩ | ⟨hne, st3, hf, h2eq⟩
    · rw [h2eq]
      exact hIw
    · obtain ⟨hcw, hlw, hsw, hpw⟩ := hIw
      have hcons3 := consistent_flush F nrm hF stw st3 hlw hcw hf
      obtain ⟨_, _, _, hp3, hs3, _⟩ := flushed_metadata F nrm stw st3 hne hf
      rw [h2eq]
      refine ⟨hcons3, ?_, ?_, ?_⟩
      · show st3.current_chunks.length = st3.current_entries.length
        obtain ⟨_, hce3, hcc3, _, _, _⟩ := flushed_metadata F nrm stw st3 hne hf
        rw [hce3, hcc3]
        exact hlw
      · intro f hfm
        have : f ∈ st3.saves := hfm
        rw [hs3] at this
        exact hsw f this
      · show FilesConsistent st3.persisted
        rw [hp3]
        exact hpw
  rcases hbr with ⟨_, rfl⟩ | ⟨_, rfl⟩
  · exact hI2
  · exact consistInv_doSave st2 hI2

/-- C3: the one-to-one index/metadata invariant.  (1) Every successful
flush (`process_chunk_batch`) extends the vector index exactly by the
batch's entry ids and the metadata log exactly by the batch's entries —
the two structures are extended together — so it maps an agreeing store
to an agreeing store.  (2) Every successful run leaves the in-memory
pair agreeing on the id sequence, and every pair of files written by a
`save_index_metadata` call (each checkpoint and the final persisted
pair) agrees as well, provided the embedder honours the one-vector-per-
text batch contract and the store loaded at start agrees. -/
theorem index_metadata_one_to_one :
    (∀ (ε : Type) (F : List (List Nat) → Except ε (List Vec))
      (nrm : Vec → Vec) (chunks : List (List Nat)) (entries : List Entry)
      (idx : Option FIndex) (md : List Entry) (r : Option FIndex × List Entry),
      LengthPres F → chunks.length = entries.length →
      process_chunk_batch F nrm chunks entries idx md = Except.ok r →
      idsOfIdx r.1 = idsOfIdx idx ++ entries.map Entry.id ∧
      r.2 = md ++ entries ∧
      (idsOfIdx idx = md.map Entry.id → idsOfIdx r.1 = r.2.map Entry.id)) ∧
    (∀ (ε : Type) (F : List (List Nat) → Except ε (List Vec))
      (nrm : Vec → Vec) (mm se : Nat) (corpus : Corpus) (pf : Option Files)
      (st' : BuildSt),
      LengthPres F → FilesConsistent pf →
      update_embeddings F nrm mm se corpus pf = Except.ok st' →
      Consistent st' ∧ (∀ f ∈ st'.saves, FilesConsistent (some f)) ∧
      FilesConsistent st'.persisted) := by
  constructor
  · intro ε F nrm chunks entries idx md r hF hlen hok
    obtain ⟨hids, hmd⟩ :=
      process_chunk_batch_ids F nrm chunks entries idx md r hF hlen hok
    refine ⟨hids, hmd, ?_⟩
    intro hcons
    rw [hids, hmd, List.map_append, hcons]
  · intro ε F nrm mm se corpus pf st' hF hpf hok
    obtain ⟨hc, _, hsv, hpc⟩ :=
      consistInv_update F nrm mm se corpus pf st' hF hpf hok
    exact ⟨hc, hsv, hpc⟩

/-- Witness for C3 on the concrete one-filing run: the final store, the
checkpoint trace and the persisted files all agree. -/
theorem index_metadata_one_to_one_witness :
    Consistent cSt1 ∧ (∀ f ∈ cSt1.saves, FilesConsistent (some f)) ∧
    FilesConsistent cSt1.persisted :=
  index_metadata_one_to_one.2 Unit cF id 1000 500 cCorpus none cSt1
    (fun b vs h => by injection h with h; rw [← h, List.length_map])
    trivial (by decide)

/-- C8: batch-flush atomicity under embedder failure.
(1) `process_chunk_batch` fails only because an embedding sub-batch
call failed, and it propagates that exact error — in the error case no
store is produced, so no vector and no metadata entry of the batch is
added.  (2) If a whole run fails with the propagated embedder error,
the files on disk at that moment are exactly the last successful
persist (or the original files when no save had happened yet).  (3) A
retried run from those files re-derives its staging from the persisted
metadata alone: it succeeds with the persisted log as an unchanged
prefix, stages only chunks whose key is not already persisted (nothing
is embedded twice), and ends with every corpus chunk key present
(nothing is lost). -/
theorem embedder_failure_atomic :
    (∀ (ε : Type) (F : List (List Nat) → Except ε (List Vec))
      (nrm : Vec → Vec) (chunks : List (List Nat)) (entries : List Entry)
      (idx : Option FIndex) (md : List Entry) (e : ε),
      process_chunk_batch F nrm chunks entries idx md = Except.error e →
      chunks ≠ [] ∧ embedBatches F (blocks100 chunks) = Except.error e) ∧
    (∀ (ε : Type) (F : List (List Nat) → Except ε (List Vec))
      (nrm : Vec → Vec) (mm se : Nat) (corpus : Corpus) (pf : Option Files)
      (e : ε) (p : Option Files) (s : List Files),
      update_embeddings F nrm mm se corpus pf =
        Except.error (RunErr.embedFail e p s) →
      p = lastPersist pf s) ∧
    (∀ (ε2 : Type) (G : List (List Nat) → Except ε2 (List Vec))
      (nrm2 : Vec → Vec) (mm2 se2 : Nat) (corpus : Corpus)
      (p : Option Files) (st2 : BuildSt),
      update_embeddings G nrm2 mm2 se2 corpus p = Except.ok st2 →
      ∃ newE, st2.metadata = loadedMd p ++ newE ∧
        (∀ en ∈ newE, keyOf en ∉ keysOf (loadedMd p)) ∧
        (∀ k ∈ corpusKeys corpus, k ∈ keysOf st2.metadata)) := by
  refine ⟨?_, ?_, ?_⟩
  · intro ε F nrm chunks entries idx md e h
    exact process_chunk_batch_err F nrm chunks entries idx md e h
  · intro ε F nrm mm se corpus pf e p s h
    obtain ⟨init, hinit, hcase⟩ :=
      update_embeddings_err_shape F nrm mm se corpus pf e p s h
    have hPer0 : PersistInv pf
        ⟨init.index, init.metadata, [], [], init.next_id, 0, 0, pf, [], 0⟩ :=
      rfl
    rcases hcase with hwErr | ⟨stw, hw, hffErr⟩
    · exact runList_err _ (PersistInv pf)
        (fun e2 => e2.2.1 = lastPersist pf e2.2.2)
        (fun st2 td st3 hI2 h2 =>
          persistInv_stepTicker F nrm init.existing_keys mm se pf st2 td st3 hI2 h2)
        (fun st2 td e2 hI2 h2 =>
          persistErr_stepTicker F nrm init.existing_keys mm se pf st2 td e2 hI2 h2)
        corpus _ (e, p, s) hPer0 hwErr
    · have hPw := persistInv_walk F nrm init.existing_keys mm se pf corpus _
        stw hPer0 hw
      obtain ⟨hne, hfErr⟩ := finalFlush_err F nrm stw _ hffErr
      obtain ⟨e0, _, heq⟩ := flushBatch_err F nrm stw _ hfErr
      have hp : p = stw.persisted := congrArg (fun x => x.2.1) heq
      have hs : s = stw.saves := congrArg (fun x => x.2.2) heq
      rw [hp, hs]
      exact hPw
  · intro ε2 G nrm2 mm2 se2 corpus p st2 h
    obtain ⟨hcov, ⟨newE, hmd, hkeys⟩, _, _, _, _, _⟩ :=
      update_ok_analysis G nrm2 mm2 se2 corpus p st2 h
    exact ⟨newE, hmd, hkeys, hcov⟩

/-- Witness for C8: a run whose embedder always fails over the
one-filing corpus fails with the original (absent) files untouched, and
a successful retry with a working embedder indexes the whole corpus
from scratch with no duplicate staging. -/
theorem embedder_failure_atomic_witness :
    ((none : Option Files) = lastPersist none []) ∧
    (∃ newE, cSt1.metadata = loadedMd (none : Option Files) ++ newE ∧
      (∀ en ∈ newE, keyOf en ∉ keysOf (loadedMd (none : Option Files))) ∧
      (∀ k ∈ corpusKeys cCorpus, k ∈ keysOf cSt1.metadata)) :=
  ⟨embedder_failure_atomic.2.1 Unit (fun _ => Except.error ()) id 1000 500
      cCorpus none () none [] (by decide),
    embedder_failure_atomic.2.2 Unit cF id 1000 500 cCorpus none cSt1
      (by decide)⟩
